import Mathlib

set_option maxRecDepth 100000
set_option maxHeartbeats 2000000

/-!
# Formal model of the DropShare secure file-transfer core

This file is a shallow embedding, in Lean 4, of the security-critical core of
the DropShare peer-to-peer file-sharing application:

* the cryptographic primitives of `src/lib/crypto.ts` (built on the noble
  libraries: SHA-256, HKDF, AES-256-GCM, and secp256k1-style ECDH and ECDSA);
* the peer/session state machine and chunked transfer engine of
  `src/hooks/usePeer.ts`.

Machine integers are modelled as `Nat` with explicit reductions `% 2^w`;
byte strings are `List Nat`.  Randomness (IVs, challenges, fresh UUIDs) is
made explicit as function arguments.  The elliptic curve is modelled over
`ZMod p` for an arbitrary prime `p` with the secp256k1 equation
`y² = x³ + 7`; point arithmetic is implemented by executable affine
formulas and proved to agree with Mathlib's group structure on
`WeierstrassCurve.Affine.Point`, so that group-theoretic facts (ECDH
symmetry, ECDSA verification) can be transferred to the executable code.
-/

namespace DropShare

/-! ## Byte-string utilities -/

/-- Byte strings (each entry is intended to lie in `[0, 256)`). -/
abbrev Bytes := List Nat

/-- Big-endian interpretation of a byte string as a natural number. -/
def bytesToNat (bs : Bytes) : Nat :=
  bs.foldl (fun acc b => acc * 256 + b) 0

/-- Big-endian serialization of a natural number into `len` bytes. -/
def natToBytes (len n : Nat) : Bytes :=
  (List.range len).map (fun i => n / 256 ^ (len - 1 - i) % 256)

@[simp] theorem natToBytes_length (len n : Nat) : (natToBytes len n).length = len := by
  simp [natToBytes]

/-- Bytewise XOR of two byte strings (truncating to the shorter one). -/
def xorBytes (a b : Bytes) : Bytes :=
  List.zipWith (fun x y => x ^^^ y) a b

theorem xorBytes_length (a b : Bytes) :
    (xorBytes a b).length = min a.length b.length := by
  simp [xorBytes]

/-- XOR with the same mask twice gives back the original list, provided the
mask is at least as long. -/
theorem xorBytes_xorBytes_cancel (a b : Bytes) (h : a.length ≤ b.length) :
    xorBytes (xorBytes a b) b = a := by
  induction a generalizing b with
  | nil => simp [xorBytes]
  | cons x xs ih =>
    cases b with
    | nil => simp at h
    | cons y ys =>
      simp only [xorBytes, List.zipWith_cons_cons, List.cons.injEq]
      refine ⟨?_, ih ys (by simpa using h)⟩
      rw [Nat.xor_assoc, Nat.xor_self, Nat.xor_zero]

/-! ## SHA-256 (from `@noble/hashes`; FIPS 180-4) -/

/-- Truncation to a 32-bit word. -/
def w32 (n : Nat) : Nat := n % 2 ^ 32

/-- Right rotation of a 32-bit word. -/
def rotr32 (n x : Nat) : Nat := w32 ((x >>> n) ||| (x <<< (32 - n)))

/-- The SHA-256 round constants (cube-root fractional parts of the first
64 primes). -/
def shaK : List Nat :=
  [1116352408, 1899447441, 3049323471, 3921009573, 961987163, 1508970993,
   2453635748, 2870763221, 3624381080, 310598401, 607225278, 1426881987,
   1925078388, 2162078206, 2614888103, 3248222580, 3835390401, 4022224774,
   264347078, 604807628, 770255983, 1249150122, 1555081692, 1996064986,
   2554220882, 2821834349, 2952996808, 3210313671, 3336571891, 3584528711,
   113926993, 338241895, 666307205, 773529912, 1294757372, 1396182291,
   1695183700, 1986661051, 2177026350, 2456956037, 2730485921, 2820302411,
   3259730800, 3345764771, 3516065817, 3600352804, 4094571909, 275423344,
   430227734, 506948616, 659060556, 883997877, 958139571, 1322822218,
   1537002063, 1747873779, 1955562222, 2024104815, 2227730452, 2361852424,
   2428436474, 2756734187, 3204031479, 3329325298]

/-- The SHA-256 initial hash state (square-root fractional parts of the
first 8 primes). -/
def shaH0 : List Nat :=
  [1779033703, 3144134277, 1013904242, 2773480762, 1359893119, 2600822924,
   528734635, 1541459225]

/-- Assemble four bytes into a big-endian 32-bit word. -/
def word32OfBytes (bs : Bytes) : Nat :=
  bs.foldl (fun acc b => acc * 256 + b) 0

/-- Split a 32-bit word into four big-endian bytes. -/
def bytesOfWord32 (x : Nat) : Bytes :=
  [x / 2 ^ 24 % 256, x / 2 ^ 16 % 256, x / 2 ^ 8 % 256, x % 256]

/-- The 64-entry message schedule of one SHA-256 block, given its sixteen
32-bit words. -/
def shaSchedule (ws : List Nat) : List Nat :=
  (List.range 48).foldl
    (fun w _ =>
      let i := w.length
      let s0 :=
        rotr32 7 (w.getD (i - 15) 0) ^^^ rotr32 18 (w.getD (i - 15) 0) ^^^
          (w.getD (i - 15) 0 >>> 3)
      let s1 :=
        rotr32 17 (w.getD (i - 2) 0) ^^^ rotr32 19 (w.getD (i - 2) 0) ^^^
          (w.getD (i - 2) 0 >>> 10)
      w ++ [w32 (w.getD (i - 16) 0 + s0 + w.getD (i - 7) 0 + s1)])
    ws

/-- One SHA-256 compression round. -/
def shaRound (st : List Nat) (kw : Nat × Nat) : List Nat :=
  match st with
  | [a, b, c, d, e, f, g, h] =>
    let S1 := rotr32 6 e ^^^ rotr32 11 e ^^^ rotr32 25 e
    let ch := (e &&& f) ^^^ ((e ^^^ (2 ^ 32 - 1)) &&& g)
    let t1 := w32 (h + S1 + ch + kw.1 + kw.2)
    let S0 := rotr32 2 a ^^^ rotr32 13 a ^^^ rotr32 22 a
    let mj := (a &&& b) ^^^ (a &&& c) ^^^ (b &&& c)
    let t2 := w32 (S0 + mj)
    [w32 (t1 + t2), a, b, c, w32 (d + t1), e, f, g]
  | st => st

/-- Compress one 64-byte block into the running hash state. -/
def shaCompress (hs : List Nat) (block : Bytes) : List Nat :=
  let ws := (List.range 16).map (fun i => word32OfBytes ((block.drop (4 * i)).take 4))
  let w := shaSchedule ws
  let st := (shaK.zip w).foldl (fun s kw => shaRound s kw) hs
  List.zipWith (fun x y => w32 (x + y)) hs st

/-- SHA-256 padding: append `0x80`, zeros, and the 64-bit bit length. -/
def shaPad (msg : Bytes) : Bytes :=
  msg ++ [128] ++ List.replicate ((119 - msg.length % 64) % 64) 0 ++
    natToBytes 8 (8 * msg.length)

/-- The SHA-256 hash of a byte string, producing 32 bytes. -/
def sha256 (msg : Bytes) : Bytes :=
  let padded := shaPad msg
  let hs := (List.range (padded.length / 64)).foldl
    (fun hs i => shaCompress hs ((padded.drop (64 * i)).take 64)) shaH0
  hs.foldr (fun x acc => bytesOfWord32 x ++ acc) []

theorem shaRound_length (st : List Nat) (kw : Nat × Nat) :
    (shaRound st kw).length = st.length := by
  unfold shaRound
  split <;> simp

theorem shaCompress_length (hs : List Nat) (block : Bytes) :
    (shaCompress hs block).length = hs.length := by
  unfold shaCompress
  have h : ∀ l : List (Nat × Nat), ∀ s : List Nat,
      (l.foldl (fun s kw => shaRound s kw) s).length = s.length := by
    intro l
    induction l with
    | nil => intro s; rfl
    | cons kw l ih => intro s; simp [List.foldl_cons, ih, shaRound_length]
  simp [h, Nat.min_def]

theorem bytesOfWord32_length (x : Nat) : (bytesOfWord32 x).length = 4 := rfl

/-- SHA-256 always produces exactly 32 bytes. -/
theorem sha256_length (msg : Bytes) : (sha256 msg).length = 32 := by
  unfold sha256
  have h8 : ∀ l : List Nat, ∀ hs : List Nat,
      (l.foldl (fun hs i => shaCompress hs (((shaPad msg).drop (64 * i)).take 64)) hs).length
        = hs.length := by
    intro l
    induction l with
    | nil => intro hs; rfl
    | cons b l ih => intro hs; simp [List.foldl_cons, ih, shaCompress_length]
  have hr : ∀ hs : List Nat,
      (hs.foldr (fun x acc => bytesOfWord32 x ++ acc) []).length = 4 * hs.length := by
    intro hs
    induction hs with
    | nil => rfl
    | cons x hs ih => simp [List.foldr_cons, ih, bytesOfWord32_length]; ring
  rw [hr, h8]
  rfl

/-! ## HMAC-SHA256 and HKDF (from `@noble/hashes`; RFC 2104 / RFC 5869) -/

/-- HMAC with SHA-256: keys longer than the 64-byte block size are hashed,
then zero-padded to 64 bytes; inner pad `0x36`, outer pad `0x5c`. -/
def hmacSha256 (key msg : Bytes) : Bytes :=
  let k0 := if 64 < key.length then sha256 key else key
  let k := k0 ++ List.replicate (64 - k0.length) 0
  sha256 ((k.map (fun b => b ^^^ 92)) ++ sha256 ((k.map (fun b => b ^^^ 54)) ++ msg))

theorem hmacSha256_length (key msg : Bytes) : (hmacSha256 key msg).length = 32 :=
  sha256_length _

/-- HKDF extract step: `PRK = HMAC(salt, ikm)`. -/
def hkdfExtract (salt ikm : Bytes) : Bytes := hmacSha256 salt ikm

/-- HKDF expand step: `T(i+1) = HMAC(PRK, T(i) ++ info ++ [i+1])`, output
truncated to `len` bytes. -/
def hkdfExpand (prk info : Bytes) (len : Nat) : Bytes :=
  let ts := (List.range ((len + 31) / 32)).foldl
    (fun acc i => acc ++ [hmacSha256 prk ((acc.getLast?.getD []) ++ info ++ [i + 1])])
    ([] : List Bytes)
  ts.flatten.take len

/-- HKDF with SHA-256.  When no salt is supplied, a hash-length block of
zeros is used (as in `@noble/hashes`). -/
def hkdfSha256 (ikm : Bytes) (salt : Option Bytes) (info : Bytes) (len : Nat) : Bytes :=
  hkdfExpand (hkdfExtract (salt.getD (List.replicate 32 0)) ikm) info len

theorem hkdfExpand_length (prk info : Bytes) (len : Nat) :
    (hkdfExpand prk info len).length = len := by
  unfold hkdfExpand
  have key : ∀ l : List Nat, ∀ acc : List Bytes,
      (∀ b ∈ acc, b.length = 32) →
      (∀ b ∈ (l.foldl
          (fun acc i => acc ++ [hmacSha256 prk ((acc.getLast?.getD []) ++ info ++ [i + 1])])
          acc), b.length = 32) ∧
      (l.foldl
          (fun acc i => acc ++ [hmacSha256 prk ((acc.getLast?.getD []) ++ info ++ [i + 1])])
          acc).length = acc.length + l.length := by
    intro l
    induction l with
    | nil => intro acc h; exact ⟨h, by simp⟩
    | cons i l ih =>
      intro acc h
      have h2 : ∀ b ∈ acc ++ [hmacSha256 prk ((acc.getLast?.getD []) ++ info ++ [i + 1])],
          b.length = 32 := by
        intro b hb
        rcases List.mem_append.mp hb with hb | hb
        · exact h b hb
        · simp only [List.mem_singleton] at hb
          simp [hb, hmacSha256_length]
      refine ⟨(ih _ h2).1, ?_⟩
      rw [List.foldl_cons, (ih _ h2).2]
      simp
      omega
  obtain ⟨hall, hlen⟩ := key (List.range ((len + 31) / 32)) [] (by simp)
  rw [List.length_take]
  have hjoin : (List.foldl
      (fun acc i => acc ++ [hmacSha256 prk ((acc.getLast?.getD []) ++ info ++ [i + 1])])
      [] (List.range ((len + 31) / 32))).flatten.length = 32 * ((len + 31) / 32) := by
    rw [List.length_flatten]
    have : ∀ l : List Bytes, (∀ b ∈ l, b.length = 32) →
        (l.map List.length).sum = 32 * l.length := by
      intro l
      induction l with
      | nil => intro _; simp
      | cons b l ih =>
        intro h
        simp [h b (by simp), ih (fun x hx => h x (List.mem_cons_of_mem _ hx))]
        ring
    rw [this _ hall, hlen]
    simp
  rw [hjoin]
  omega

theorem hkdfSha256_length (ikm : Bytes) (salt : Option Bytes) (info : Bytes) (len : Nat) :
    (hkdfSha256 ikm salt info len).length = len :=
  hkdfExpand_length _ _ _

/-! ## AES-256-GCM (from `@noble/ciphers`; FIPS 197 / NIST SP 800-38D)

The program encrypts every file chunk with AES-256 in Galois/Counter Mode
under a 96-bit random IV, with the 16-byte authentication tag appended to
the ciphertext (`gcm(key, iv).encrypt`).  The state of the block cipher is
a fixed 16-byte array, mirrored here by fixed-width list operations. -/

/-- The AES S-box. -/
def sbox : List Nat :=
  [99, 124, 119, 123, 242, 107, 111, 197, 48, 1, 103, 43, 254, 215, 171, 118,
   202, 130, 201, 125, 250, 89, 71, 240, 173, 212, 162, 175, 156, 164, 114, 192,
   183, 253, 147, 38, 54, 63, 247, 204, 52, 165, 229, 241, 113, 216, 49, 21,
   4, 199, 35, 195, 24, 150, 5, 154, 7, 18, 128, 226, 235, 39, 178, 117,
   9, 131, 44, 26, 27, 110, 90, 160, 82, 59, 214, 179, 41, 227, 47, 132,
   83, 209, 0, 237, 32, 252, 177, 91, 106, 203, 190, 57, 74, 76, 88, 207,
   208, 239, 170, 251, 67, 77, 51, 133, 69, 249, 2, 127, 80, 60, 159, 168,
   81, 163, 64, 143, 146, 157, 56, 245, 188, 182, 218, 33, 16, 255, 243, 210,
   205, 12, 19, 236, 95, 151, 68, 23, 196, 167, 126, 61, 100, 93, 25, 115,
   96, 129, 79, 220, 34, 42, 144, 136, 70, 238, 184, 20, 222, 94, 11, 219,
   224, 50, 58, 10, 73, 6, 36, 92, 194, 211, 172, 98, 145, 149, 228, 121,
   231, 200, 55, 109, 141, 213, 78, 169, 108, 86, 244, 234, 101, 122, 174, 8,
   186, 120, 37, 46, 28, 166, 180, 198, 232, 221, 116, 31, 75, 189, 139, 138,
   112, 62, 181, 102, 72, 3, 246, 14, 97, 53, 87, 185, 134, 193, 29, 158,
   225, 248, 152, 17, 105, 217, 142, 148, 155, 30, 135, 233, 206, 85, 40, 223,
   140, 161, 137, 13, 191, 230, 66, 104, 65, 153, 45, 15, 176, 84, 187, 22]

/-- Look up a byte in the AES S-box. -/
def sboxAt (b : Nat) : Nat := sbox.getD b 0

/-- Multiplication by `x` in GF(2^8) modulo `x^8 + x^4 + x^3 + x + 1`. -/
def xtime (a : Nat) : Nat := if a < 128 then 2 * a else (2 * a) ^^^ 283

/-- The AES SubBytes step. -/
def subBytes (s : Bytes) : Bytes := s.map sboxAt

/-- The AES ShiftRows step on a 16-byte column-major state. -/
def shiftRows (s : Bytes) : Bytes :=
  (List.range 16).map (fun i => s.getD ((i + 4 * (i % 4)) % 16) 0)

/-- The AES MixColumns step on one 4-byte column. -/
def mixColumn (c : Bytes) : Bytes :=
  match c with
  | [a0, a1, a2, a3] =>
    [xtime a0 ^^^ xtime a1 ^^^ a1 ^^^ a2 ^^^ a3,
     a0 ^^^ xtime a1 ^^^ xtime a2 ^^^ a2 ^^^ a3,
     a0 ^^^ a1 ^^^ xtime a2 ^^^ xtime a3 ^^^ a3,
     xtime a0 ^^^ a0 ^^^ a1 ^^^ a2 ^^^ xtime a3]
  | c => c

/-- The AES MixColumns step on the full state. -/
def mixColumns (s : Bytes) : Bytes :=
  ((List.range 4).map (fun c => mixColumn ((s.drop (4 * c)).take 4))).flatten

/-- The AES AddRoundKey step (the state is a fixed 16-byte array). -/
def addRoundKey (s k : Bytes) : Bytes :=
  (List.range 16).map (fun i => s.getD i 0 ^^^ k.getD i 0)

/-- The AES-256 key expansion: 8 initial words, 52 derived words, where
every 8th word is rotated, substituted and xored with the round constant,
and every word at offset 4 within a group of 8 is substituted. -/
def keyExpansion (key : Bytes) : List Bytes :=
  ((List.range 52).foldl
    (fun (acc : List Bytes × Nat) j =>
      let i := j + 8
      let ws := acc.1
      let rcon := acc.2
      let prev := ws.getD (i - 1) []
      let t :=
        if i % 8 = 0 then
          match (prev.rotateLeft 1).map sboxAt with
          | b0 :: rest => (b0 ^^^ rcon) :: rest
          | [] => []
        else if i % 8 = 4 then prev.map sboxAt
        else prev
      (ws ++ [xorBytes (ws.getD (i - 8) []) t],
       if i % 8 = 0 then xtime rcon else rcon))
    ((List.range 8).map (fun i => (key.drop (4 * i)).take 4), 1)).1

/-- The fifteen 16-byte round keys of AES-256. -/
def roundKeys (key : Bytes) : List Bytes :=
  (List.range 15).map (fun r => (((keyExpansion key).drop (4 * r)).take 4).flatten)

/-- AES-256 encryption of a single 16-byte block: 13 full rounds between
the initial whitening and the final round without MixColumns. -/
def aesEncryptBlock (key block : Bytes) : Bytes :=
  let rks := roundKeys key
  let s0 := addRoundKey block (rks.getD 0 [])
  let s := (List.range 13).foldl
    (fun s r => addRoundKey (mixColumns (shiftRows (subBytes s))) (rks.getD (r + 1) []))
    s0
  addRoundKey (shiftRows (subBytes s)) (rks.getD 14 [])

theorem addRoundKey_length (s k : Bytes) : (addRoundKey s k).length = 16 := by
  simp [addRoundKey]

theorem aesEncryptBlock_length (key block : Bytes) :
    (aesEncryptBlock key block).length = 16 :=
  addRoundKey_length _ _

/-- Multiplication in GF(2^128) with the GCM reduction polynomial, on
128-bit block values (NIST SP 800-38D algorithm 1). -/
def gfMul (x y : Nat) : Nat :=
  ((List.range 128).foldl
    (fun (zv : Nat × Nat) i =>
      (if (y >>> (127 - i)) % 2 = 1 then zv.1 ^^^ zv.2 else zv.1,
       if zv.2 % 2 = 1 then (zv.2 >>> 1) ^^^ (225 <<< 120) else zv.2 >>> 1))
    (0, x)).1

/-- The GHASH function over 16-byte blocks of `data` (whose length must be
a multiple of 16) with hash key `h`. -/
def ghash (h : Nat) (data : Bytes) : Nat :=
  (List.range (data.length / 16)).foldl
    (fun y i => gfMul (y ^^^ bytesToNat ((data.drop (16 * i)).take 16)) h) 0

/-- Increment the last 32 bits of a 16-byte counter block. -/
def inc32 (b : Bytes) : Bytes :=
  b.take 12 ++ natToBytes 4 ((bytesToNat (b.drop 12) + 1) % 2 ^ 32)

/-- The GCM counter-mode keystream: successive encryptions of the
incremented counter, starting from `inc32 j0`. -/
def gcmKeystream (key j0 : Bytes) (nblocks : Nat) : Bytes :=
  ((List.range nblocks).foldl
    (fun (acc : Bytes × Bytes) _ =>
      let ctr := inc32 acc.2
      (acc.1 ++ aesEncryptBlock key ctr, ctr))
    ([], j0)).1

/-- Counter-mode encryption/decryption: XOR `data` with the keystream
derived from the 96-bit IV (`J0 = IV ++ 0x00000001`). -/
def gcmCtr (key iv data : Bytes) : Bytes :=
  xorBytes data (gcmKeystream key (iv ++ [0, 0, 0, 1]) ((data.length + 15) / 16))

/-- The 16-byte GCM authentication tag over a ciphertext (the program never
passes associated data): `E(K, J0) XOR GHASH(H, C ++ pad ++ len)`. -/
def gcmTag (key iv ct : Bytes) : Bytes :=
  let j0 := iv ++ [0, 0, 0, 1]
  let h := bytesToNat (aesEncryptBlock key (List.replicate 16 0))
  let s := ghash h
    (ct ++ List.replicate ((16 - ct.length % 16) % 16) 0 ++
      natToBytes 8 0 ++ natToBytes 8 (8 * ct.length))
  xorBytes (aesEncryptBlock key j0) (natToBytes 16 s)

theorem gcmKeystream_length (key j0 : Bytes) (nblocks : Nat) :
    (gcmKeystream key j0 nblocks).length = 16 * nblocks := by
  unfold gcmKeystream
  have key2 : ∀ l : List Nat, ∀ acc : Bytes × Bytes,
      ((l.foldl
        (fun (acc : Bytes × Bytes) _ =>
          let ctr := inc32 acc.2
          (acc.1 ++ aesEncryptBlock key ctr, ctr))
        acc).1).length = acc.1.length + 16 * l.length := by
    intro l
    induction l with
    | nil => intro acc; simp
    | cons x l ih =>
      intro acc
      rw [List.foldl_cons, ih]
      simp [aesEncryptBlock_length]
      ring
  rw [key2]
  simp

theorem gcmCtr_length (key iv data : Bytes) : (gcmCtr key iv data).length = data.length := by
  rw [gcmCtr, xorBytes_length, gcmKeystream_length]
  omega

theorem gcmTag_length (key iv ct : Bytes) : (gcmTag key iv ct).length = 16 := by
  rw [gcmTag, xorBytes_length, aesEncryptBlock_length]
  simp

/-- Counter mode is an involution: applying it twice with the same key and
IV restores the data. -/
theorem gcmCtr_gcmCtr (key iv data : Bytes) :
    gcmCtr key iv (gcmCtr key iv data) = data := by
  have hl : (gcmCtr key iv data).length = data.length := gcmCtr_length key iv data
  rw [gcmCtr, hl, gcmCtr, xorBytes_xorBytes_cancel]
  rw [gcmKeystream_length]
  omega

/-! ## The `crypto.ts` AES-GCM wrappers

`encryptData` generates a fresh random 96-bit IV (modelled as an explicit
argument), runs AES-256-GCM and returns the ciphertext (with its appended
authentication tag) together with the IV.  `decryptData` recomputes the
tag and fails on mismatch, yielding no partial output.  The underlying
noble implementation throws on malformed key, nonce or ciphertext
lengths; errors are modelled with `Except`. -/

/-- Failure modes of the AES-GCM layer (noble throws exceptions; the
TypeScript callers observe them via `try`/`catch`). -/
inductive GcmError where
  | invalidKeyLength
  | invalidNonceLength
  | invalidCiphertextLength
  | authenticationFailure
deriving DecidableEq, Repr

/-- The `EncryptedData` interface of `crypto.ts`: ciphertext with appended
tag, plus the IV used. -/
structure EncryptedData where
  data : Bytes
  iv : Bytes
deriving DecidableEq, Repr

/-- Model of `encryptData(data, key)` from `crypto.ts`.  The random
96-bit IV produced by `crypto.getRandomValues` is passed explicitly. -/
def encryptData (data key iv : Bytes) : Except GcmError EncryptedData :=
  if key.length ≠ 32 then .error .invalidKeyLength
  else if iv.length ≠ 12 then .error .invalidNonceLength
  else
    let ct := gcmCtr key iv data
    .ok ⟨ct ++ gcmTag key iv ct, iv⟩

/-- Model of `decryptData(encryptedData, key)` from `crypto.ts`:
recompute the GCM tag over the ciphertext and compare with the trailing
16 bytes; on mismatch the noble layer throws (no partial plaintext is
ever produced). -/
def decryptData (e : EncryptedData) (key : Bytes) : Except GcmError Bytes :=
  if key.length ≠ 32 then .error .invalidKeyLength
  else if e.iv.length ≠ 12 then .error .invalidNonceLength
  else if e.data.length < 16 then .error .invalidCiphertextLength
  else
    let ct := e.data.take (e.data.length - 16)
    if gcmTag key e.iv ct = e.data.drop (e.data.length - 16) then .ok (gcmCtr key e.iv ct)
    else .error .authenticationFailure

/-! ## The secp256k1-style elliptic curve (from `@noble/curves`)

`crypto.ts` uses the short Weierstrass curve `y² = x³ + 7` over the
secp256k1 prime field for both ECDH (`getSharedSecret`) and ECDSA
(`sign`/`verify`).  The curve is modelled over `ZMod p` for an arbitrary
prime `p`; the point arithmetic below implements the usual executable
chord-and-tangent formulas, and is then proved to agree with the
(noncomputable) group structure on `WeierstrassCurve.Affine.Point` in
Mathlib, from which the algebraic properties follow. -/

/-- The curve `y² = x³ + 7` in Weierstrass form over `ZMod p`. -/
def secpCurve (p : ℕ) : WeierstrassCurve.Affine (ZMod p) :=
  { a₁ := 0, a₂ := 0, a₃ := 0, a₄ := 0, a₆ := 7 }

@[simp] theorem secpCurve_a₁ (p : ℕ) : (secpCurve p).a₁ = 0 := rfl
@[simp] theorem secpCurve_a₂ (p : ℕ) : (secpCurve p).a₂ = 0 := rfl
@[simp] theorem secpCurve_a₃ (p : ℕ) : (secpCurve p).a₃ = 0 := rfl
@[simp] theorem secpCurve_a₄ (p : ℕ) : (secpCurve p).a₄ = 0 := rfl
@[simp] theorem secpCurve_a₆ (p : ℕ) : (secpCurve p).a₆ = 7 := rfl

/-- Fueled variant of `Nat.xgcdAux` (the extended Euclidean algorithm),
structurally recursive so that it reduces in the kernel. -/
def xgcdAuxF : ℕ → ℕ → ℤ → ℤ → ℕ → ℤ → ℤ → ℕ × ℤ × ℤ
  | 0, _, _, _, r', s', t' => (r', s', t')
  | _ + 1, 0, _, _, r', s', t' => (r', s', t')
  | fuel + 1, k + 1, s, t, r', s', t' =>
    xgcdAuxF fuel (r' % (k + 1)) (s' - (r' / (k + 1)) * s) (t' - (r' / (k + 1)) * t)
      (k + 1) s t

theorem xgcdAuxF_eq : ∀ fuel x s t r' s' t', x < fuel →
    xgcdAuxF fuel x s t r' s' t' = Nat.xgcdAux x s t r' s' t' := by
  intro fuel
  induction fuel with
  | zero => intro x s t r' s' t' h; omega
  | succ f ih =>
    intro x s t r' s' t' h
    cases x with
    | zero => rw [Nat.xgcd_zero_left]; rfl
    | succ k =>
      rw [Nat.xgcdAux_rec (Nat.succ_pos k)]
      show xgcdAuxF f (r' % (k + 1)) _ _ _ _ _ = _
      exact ih _ _ _ _ _ _ (by
        have := Nat.mod_lt r' (show 0 < k + 1 by omega)
        omega)

/-- Executable inversion on `ZMod n`, agreeing with `ZMod.inv` (which is
`Nat.gcdA`, well-founded recursion that the kernel cannot reduce). -/
def zinv (n : ℕ) (a : ZMod n) : ZMod n :=
  (((xgcdAuxF (a.val + 1) a.val 1 0 n 0 1).2.1 : ℤ) : ZMod n)

/-- Executable division on `ZMod n`. -/
def zdiv (n : ℕ) (a b : ZMod n) : ZMod n := a * zinv n b

theorem zinv_eq_inv (n : ℕ) [NeZero n] (a : ZMod n) : zinv n a = a⁻¹ := by
  cases n with
  | zero => exact absurd rfl (NeZero.ne 0)
  | succ m =>
    show (((xgcdAuxF (a.val + 1) a.val 1 0 (m + 1) 0 1).2.1 : ℤ) : ZMod (m + 1)) = a⁻¹
    rw [xgcdAuxF_eq _ _ _ _ _ _ _ (Nat.lt_succ_self _)]
    rfl

theorem zdiv_eq_div (n : ℕ) [Fact n.Prime] (a b : ZMod n) : zdiv n a b = a / b := by
  haveI : NeZero n := ⟨Nat.Prime.ne_zero Fact.out⟩
  rw [zdiv, zinv_eq_inv, div_eq_mul_inv]

/-- An executable representation of a point on the curve: the point at
infinity or an affine pair of coordinates. -/
inductive Pt (p : ℕ) where
  | inf : Pt p
  | aff (x y : ZMod p) : Pt p
deriving DecidableEq

/-- Validity of an executable point: the point at infinity is valid, and
an affine point must satisfy the curve equation and be nonsingular (this
matches `WeierstrassCurve.Affine.nonsingular_iff` for `secpCurve`). -/
def ptValid (p : ℕ) : Pt p → Prop
  | .inf => True
  | .aff x y => y ^ 2 = x ^ 3 + 7 ∧ ((0 : ZMod p) ≠ 3 * x ^ 2 ∨ y ≠ -y)

instance (p : ℕ) : DecidablePred (ptValid p) := fun P =>
  match P with
  | .inf => .isTrue trivial
  | .aff _ _ => inferInstanceAs (Decidable (_ ∧ _))

theorem ptValid_aff_iff {p : ℕ} [Fact p.Prime] (x y : ZMod p) :
    ptValid p (.aff x y) ↔ (secpCurve p).Nonsingular x y := by
  rw [WeierstrassCurve.Affine.nonsingular_iff, WeierstrassCurve.Affine.equation_iff]
  simp [ptValid]

/-- Interpretation of an executable point as a Mathlib nonsingular point;
invalid affine pairs (which the noble layer rejects when deserializing)
are mapped to the zero point. -/
def toPoint {p : ℕ} [Fact p.Prime] (P : Pt p) : (secpCurve p).Point :=
  match P with
  | .inf => 0
  | .aff x y =>
    if h : ptValid p (.aff x y) then .some ((ptValid_aff_iff x y).mp h) else 0

/-- Executable point negation. -/
def pNeg (p : ℕ) : Pt p → Pt p
  | .inf => .inf
  | .aff x y => .aff x (-y)

/-- Executable point addition by the chord-and-tangent formulas, as in the
projective-coordinate arithmetic of `@noble/curves` (specialized to
`a₁ = a₂ = a₃ = a₄ = 0`). -/
def pAdd (p : ℕ) [Fact p.Prime] : Pt p → Pt p → Pt p
  | .inf, Q => Q
  | P, .inf => P
  | .aff x₁ y₁, .aff x₂ y₂ =>
    if x₁ = x₂ then
      if y₁ = -y₂ then .inf
      else
        let L := zdiv p (3 * x₁ ^ 2) (y₁ + y₁)
        let x₃ := L ^ 2 - x₁ - x₂
        .aff x₃ (-(L * (x₃ - x₁) + y₁))
    else
      let L := zdiv p (y₁ - y₂) (x₁ - x₂)
      let x₃ := L ^ 2 - x₁ - x₂
      .aff x₃ (-(L * (x₃ - x₁) + y₁))

/-- Executable double-and-add scalar multiplication, with explicit fuel
(structural recursion keeps the definition kernel-reducible). -/
def ptMulF (p : ℕ) [Fact p.Prime] : ℕ → ℕ → Pt p → Pt p
  | 0, _, _ => .inf
  | fuel + 1, k, P =>
    if k = 0 then .inf
    else
      let r := ptMulF p fuel (k / 2) (pAdd p P P)
      if k % 2 = 1 then pAdd p P r else r

/-- Scalar multiplication `k • P` on executable points. -/
def ptMul (p : ℕ) [Fact p.Prime] (k : ℕ) (P : Pt p) : Pt p :=
  ptMulF p (k + 1) k P


section CurveBridge

open WeierstrassCurve.Affine

variable {p : ℕ} [Fact p.Prime]

@[simp] theorem toPoint_inf : toPoint (Pt.inf : Pt p) = 0 := rfl

theorem ptValid_inf : ptValid p Pt.inf := trivial

@[simp] theorem pAdd_inf_left (Q : Pt p) : pAdd p Pt.inf Q = Q := by
  cases Q <;> rfl

@[simp] theorem pAdd_inf_right (P : Pt p) : pAdd p P Pt.inf = P := by
  cases P <;> rfl

theorem pAdd_aff_vertical {x₁ y₁ x₂ y₂ : ZMod p} (hx : x₁ = x₂) (hy : y₁ = -y₂) :
    pAdd p (Pt.aff x₁ y₁) (Pt.aff x₂ y₂) = Pt.inf := by
  simp only [pAdd, if_pos hx, if_pos hy]

theorem pAdd_aff_tangent {x₁ y₁ x₂ y₂ : ZMod p} (hx : x₁ = x₂) (hy : y₁ ≠ -y₂) :
    pAdd p (Pt.aff x₁ y₁) (Pt.aff x₂ y₂) =
      Pt.aff ((zdiv p (3 * x₁ ^ 2) (y₁ + y₁)) ^ 2 - x₁ - x₂)
        (-(zdiv p (3 * x₁ ^ 2) (y₁ + y₁) *
            ((zdiv p (3 * x₁ ^ 2) (y₁ + y₁)) ^ 2 - x₁ - x₂ - x₁) + y₁)) := by
  simp only [pAdd, if_pos hx, if_neg hy]

theorem pAdd_aff_chord {x₁ y₁ x₂ y₂ : ZMod p} (hx : x₁ ≠ x₂) :
    pAdd p (Pt.aff x₁ y₁) (Pt.aff x₂ y₂) =
      Pt.aff ((zdiv p (y₁ - y₂) (x₁ - x₂)) ^ 2 - x₁ - x₂)
        (-(zdiv p (y₁ - y₂) (x₁ - x₂) *
            ((zdiv p (y₁ - y₂) (x₁ - x₂)) ^ 2 - x₁ - x₂ - x₁) + y₁)) := by
  simp only [pAdd, if_neg hx]

theorem secp_negY (x y : ZMod p) : (secpCurve p).negY x y = -y := by
  simp [WeierstrassCurve.Affine.negY]

theorem secp_addX (x₁ x₂ L : ZMod p) :
    (secpCurve p).addX x₁ x₂ L = L ^ 2 - x₁ - x₂ := by
  simp [WeierstrassCurve.Affine.addX]

theorem secp_addY (x₁ x₂ y₁ L : ZMod p) :
    (secpCurve p).addY x₁ x₂ y₁ L = -(L * (L ^ 2 - x₁ - x₂ - x₁) + y₁) := by
  simp [WeierstrassCurve.Affine.addY, WeierstrassCurve.Affine.negAddY,
    WeierstrassCurve.Affine.negY, WeierstrassCurve.Affine.addX]

theorem point_some_congr {x₁ y₁ x₂ y₂ : ZMod p} (hx : x₁ = x₂) (hy : y₁ = y₂)
    (h₁ : (secpCurve p).Nonsingular x₁ y₁) (h₂ : (secpCurve p).Nonsingular x₂ y₂) :
    WeierstrassCurve.Affine.Point.some h₁ = WeierstrassCurve.Affine.Point.some h₂ := by
  subst hx
  subst hy
  rfl

theorem toPoint_aff {x y : ZMod p} (h : ptValid p (.aff x y)) :
    toPoint (Pt.aff x y) = .some ((ptValid_aff_iff x y).mp h) := by
  simp [toPoint, h]

/-- The slope used by the executable tangent formula agrees with
Mathlib's `slope` when `x₁ = x₂` and `y₁ ≠ -y₂`. -/
theorem secp_slope_tangent {x₁ x₂ y₁ y₂ : ZMod p} (hx : x₁ = x₂) (hy : y₁ ≠ -y₂) :
    (secpCurve p).slope x₁ x₂ y₁ y₂ = 3 * x₁ ^ 2 / (y₁ + y₁) := by
  rw [slope_of_Y_ne hx (by rw [secp_negY]; exact hy), secp_negY]
  norm_num

/-- Executable point addition is valid and agrees with the group law on
Mathlib's nonsingular points. -/
theorem pAdd_spec {P Q : Pt p} (hP : ptValid p P) (hQ : ptValid p Q) :
    ptValid p (pAdd p P Q) ∧ toPoint (pAdd p P Q) = toPoint P + toPoint Q := by
  cases P with
  | inf => simpa using hQ
  | aff x₁ y₁ =>
    cases Q with
    | inf => simpa using hP
    | aff x₂ y₂ =>
      have n₁ := (ptValid_aff_iff x₁ y₁).mp hP
      have n₂ := (ptValid_aff_iff x₂ y₂).mp hQ
      rw [toPoint_aff hP, toPoint_aff hQ]
      by_cases hx : x₁ = x₂
      · by_cases hy : y₁ = -y₂
        · rw [pAdd_aff_vertical hx hy,
            Point.add_of_Y_eq hx (by rw [secp_negY]; exact hy)]
          exact ⟨trivial, rfl⟩
        · have hyn : y₁ ≠ (secpCurve p).negY x₂ y₂ := by rw [secp_negY]; exact hy
          have hadd : pAdd p (Pt.aff x₁ y₁) (Pt.aff x₂ y₂) =
              Pt.aff ((secpCurve p).addX x₁ x₂ ((secpCurve p).slope x₁ x₂ y₁ y₂))
                ((secpCurve p).addY x₁ x₂ y₁ ((secpCurve p).slope x₁ x₂ y₁ y₂)) := by
            have hadd0 := pAdd_aff_tangent hx hy
            simp only [zdiv_eq_div] at hadd0
            rw [secp_slope_tangent hx hy, secp_addX, secp_addY]
            exact hadd0
          have hns := nonsingular_add n₁ n₂ (fun _ => hyn)
          rw [hadd, Point.add_of_Y_ne hyn, toPoint_aff ((ptValid_aff_iff _ _).mpr hns)]
          exact ⟨(ptValid_aff_iff _ _).mpr hns, point_some_congr rfl rfl _ _⟩
      · have hadd : pAdd p (Pt.aff x₁ y₁) (Pt.aff x₂ y₂) =
            Pt.aff ((secpCurve p).addX x₁ x₂ ((secpCurve p).slope x₁ x₂ y₁ y₂))
              ((secpCurve p).addY x₁ x₂ y₁ ((secpCurve p).slope x₁ x₂ y₁ y₂)) := by
          have hadd0 := @pAdd_aff_chord p _ x₁ y₁ x₂ y₂ hx
          simp only [zdiv_eq_div] at hadd0
          rw [slope_of_X_ne hx, secp_addX, secp_addY]
          exact hadd0
        have hns := nonsingular_add n₁ n₂ (fun h => absurd h hx)
        rw [hadd, Point.add_of_X_ne hx, toPoint_aff ((ptValid_aff_iff _ _).mpr hns)]
        exact ⟨(ptValid_aff_iff _ _).mpr hns, point_some_congr rfl rfl _ _⟩

theorem ptValid_pAdd {P Q : Pt p} (hP : ptValid p P) (hQ : ptValid p Q) :
    ptValid p (pAdd p P Q) :=
  (pAdd_spec hP hQ).1

theorem toPoint_pAdd {P Q : Pt p} (hP : ptValid p P) (hQ : ptValid p Q) :
    toPoint (pAdd p P Q) = toPoint P + toPoint Q :=
  (pAdd_spec hP hQ).2

/-- Executable negation is valid and agrees with group negation. -/
theorem pNeg_spec {P : Pt p} (hP : ptValid p P) :
    ptValid p (pNeg p P) ∧ toPoint (pNeg p P) = -toPoint P := by
  cases P with
  | inf => exact ⟨trivial, by simp [pNeg]⟩
  | aff x y =>
    have n₁ := (ptValid_aff_iff x y).mp hP
    have hneg := nonsingular_neg n₁
    rw [secp_negY] at hneg
    have hv : ptValid p (Pt.aff x (-y)) := (ptValid_aff_iff _ _).mpr hneg
    refine ⟨hv, ?_⟩
    have he : pNeg p (Pt.aff x y) = Pt.aff x (-y) := rfl
    rw [he, toPoint_aff hP, toPoint_aff hv, Point.neg_some]
    refine point_some_congr rfl ?_ _ _
    rw [secp_negY]

/-- The interpretation map is injective on valid points. -/
theorem toPoint_inj {P Q : Pt p} (hP : ptValid p P) (hQ : ptValid p Q)
    (h : toPoint P = toPoint Q) : P = Q := by
  cases P with
  | inf =>
    cases Q with
    | inf => rfl
    | aff x y =>
      rw [toPoint_aff hQ, toPoint_inf] at h
      exact absurd h.symm (Point.some_ne_zero _)
  | aff x₁ y₁ =>
    cases Q with
    | inf =>
      rw [toPoint_aff hP, toPoint_inf] at h
      exact absurd h (Point.some_ne_zero _)
    | aff x₂ y₂ =>
      rw [toPoint_aff hP, toPoint_aff hQ] at h
      injection h with hx hy
      rw [hx, hy]

theorem ptMulF_zero (f : ℕ) (P : Pt p) : ptMulF p (f + 1) 0 P = Pt.inf := by
  simp [ptMulF]

/-- Fueled scalar multiplication is valid and agrees with `k • _` on
Mathlib's points, given sufficient fuel. -/
theorem ptMulF_spec : ∀ fuel k (P : Pt p), k < fuel → ptValid p P →
    ptValid p (ptMulF p fuel k P) ∧ toPoint (ptMulF p fuel k P) = k • toPoint P := by
  intro fuel
  induction fuel with
  | zero => intro k P hk; omega
  | succ f ih =>
    intro k P hk hP
    by_cases hk0 : k = 0
    · subst hk0
      rw [ptMulF_zero]
      exact ⟨trivial, (zero_nsmul _).symm⟩
    · have hPP := pAdd_spec hP hP
      have hk2 : k / 2 < f := by omega
      have hr := ih (k / 2) (pAdd p P P) hk2 hPP.1
      have hne : ptMulF p (f + 1) k P =
          if k % 2 = 1 then pAdd p P (ptMulF p f (k / 2) (pAdd p P P))
          else ptMulF p f (k / 2) (pAdd p P P) := by
        simp [ptMulF, hk0]
      by_cases hodd : k % 2 = 1
      · rw [hne, if_pos hodd]
        have hs := pAdd_spec hP hr.1
        refine ⟨hs.1, ?_⟩
        rw [hs.2, hr.2, hPP.2, ← two_nsmul, ← mul_nsmul]
        have hk' : k = 1 + 2 * (k / 2) := by omega
        conv_rhs => rw [hk']
        rw [add_nsmul, one_nsmul]
      · rw [hne, if_neg hodd]
        refine ⟨hr.1, ?_⟩
        rw [hr.2, hPP.2, ← two_nsmul, ← mul_nsmul]
        congr 1
        omega

theorem ptValid_ptMul (k : ℕ) {P : Pt p} (hP : ptValid p P) :
    ptValid p (ptMul p k P) :=
  (ptMulF_spec (k + 1) k P (Nat.lt_succ_self k) hP).1

theorem toPoint_ptMul (k : ℕ) {P : Pt p} (hP : ptValid p P) :
    toPoint (ptMul p k P) = k • toPoint P :=
  (ptMulF_spec (k + 1) k P (Nat.lt_succ_self k) hP).2

end CurveBridge


/-! ## ECDH and ECDSA (from `@noble/curves` via `crypto.ts`)

`crypto.ts` derives the shared AES key with
`hkdf(sha256, secp256k1.getSharedSecret(priv, pub), undefined, "dropshare", 32)`
and authenticates peers with ECDSA over the SHA-256 hash of a random
challenge, in compact (r ‖ s) signature form with low-s normalization.
The group order of the generator is a parameter `n`; `fuel` bounds the
RFC 6979 retry loop, which is an unbounded rejection loop in the source. -/

/-- Bit length of a natural number, via explicit fuel so that it reduces
in the kernel (`Nat.size` is well-founded recursion). -/
def bitLenF : ℕ → ℕ → ℕ
  | 0, _ => 0
  | f + 1, n => if n = 0 then 0 else bitLenF f (n / 2) + 1

/-- Bit length of a natural number (noble's `nBitLength`). -/
def bitLen (n : ℕ) : ℕ := bitLenF n n

/-- Byte length of the scalar field (noble's `nByteLength`). -/
def nBytesOf (n : ℕ) : ℕ := (bitLen n + 7) / 8

/-- RFC 6979 / SEC1 `bits2int`: interpret the bytes big-endian and drop
excess low-order bits beyond the bit length of `n`. -/
def bits2int (n : ℕ) (bs : Bytes) : ℕ :=
  if bitLen n < 8 * bs.length then bytesToNat bs >>> (8 * bs.length - bitLen n)
  else bytesToNat bs

/-- RFC 6979 `bits2octets`: `bits2int`, reduced mod `n`, re-serialized. -/
def bits2octets (n : ℕ) (bs : Bytes) : Bytes :=
  natToBytes (nBytesOf n) (bits2int n bs % n)

/-- One (re)seeding step of the RFC 6979 HMAC-DRBG. -/
def drbgReseed (kv : Bytes × Bytes) (seed : Bytes) : Bytes × Bytes :=
  let k1 := hmacSha256 kv.1 (kv.2 ++ [0] ++ seed)
  let v1 := hmacSha256 k1 kv.2
  if seed = [] then (k1, v1)
  else
    let k2 := hmacSha256 k1 (v1 ++ [1] ++ seed)
    (k2, hmacSha256 k2 v1)

/-- Initial HMAC-DRBG state: `V = 0x01…01`, `K = 0x00…00`, then reseed. -/
def drbgInit (seed : Bytes) : Bytes × Bytes :=
  drbgReseed (List.replicate 32 0, List.replicate 32 1) seed

/-- The ECDSA signing loop: draw a nonce candidate from the DRBG, reject
it unless `1 ≤ k < n`, compute `R = k·G`, `r = R.x mod n` and
`s = k⁻¹(z + r·d) mod n`, rejecting zero values, and normalize `s` to the
low half-range.  Returns `(r, s)` as scalars mod `n`. -/
def signLoop (p n : ℕ) [Fact p.Prime] [Fact n.Prime] (G : Pt p)
    (z d : ZMod n) : ℕ → Bytes × Bytes → Option (ZMod n × ZMod n)
  | 0, _ => none
  | fuel + 1, kv =>
    let v1 := hmacSha256 kv.1 kv.2
    let kNat := bits2int n (v1.take (nBytesOf n))
    let next := drbgReseed (kv.1, v1) []
    if 1 ≤ kNat ∧ kNat < n then
      match ptMul p kNat G with
      | .inf => signLoop p n G z d fuel next
      | .aff x _ =>
        let r : ZMod n := (x.val : ZMod n)
        if r = 0 then signLoop p n G z d fuel next
        else
          let s := zinv n ((kNat : ZMod n)) * (z + r * d)
          if s = 0 then signLoop p n G z d fuel next
          else some (r, if n / 2 < s.val then -s else s)
    else signLoop p n G z d fuel next

/-- Model of `signChallenge(challenge, privateKey)` from `crypto.ts`:
ECDSA over the SHA-256 hash of the challenge with an RFC 6979
deterministic nonce, returning the compact `r ‖ s` byte signature. -/
def signChallenge (p n : ℕ) [Fact p.Prime] [Fact n.Prime] (G : Pt p)
    (fuel : ℕ) (challenge : Bytes) (priv : ℕ) : Option Bytes :=
  let h1 := sha256 challenge
  let d : ZMod n := (priv : ZMod n)
  let z : ZMod n := ((bits2int n h1 : ℕ) : ZMod n)
  let seed := natToBytes (nBytesOf n) d.val ++ bits2octets n h1
  match signLoop p n G z d fuel (drbgInit seed) with
  | none => none
  | some (r, s) => some (natToBytes (nBytesOf n) r.val ++ natToBytes (nBytesOf n) s.val)

/-- Model of `verifyChallenge(challenge, signature, publicKey)` from
`crypto.ts`: parse the compact signature (returning `false`, as the
`try`/`catch` does, on malformed length or out-of-range components),
reject high-s signatures (noble's default `lowS: true`), reject invalid
public keys, and check `(z·s⁻¹)·G + (r·s⁻¹)·pub` against `r`. -/
def verifyChallenge (p n : ℕ) [Fact p.Prime] [Fact n.Prime] (G : Pt p)
    (challenge sig : Bytes) (pub : Pt p) : Bool :=
  if sig.length ≠ 2 * nBytesOf n then false
  else
    let r := bytesToNat (sig.take (nBytesOf n))
    let s := bytesToNat (sig.drop (nBytesOf n))
    if r = 0 ∨ n ≤ r ∨ s = 0 ∨ n ≤ s then false
    else if n / 2 < s then false
    else if ¬ ptValid p pub ∨ pub = Pt.inf then false
    else
      let z : ZMod n := ((bits2int n (sha256 challenge) : ℕ) : ZMod n)
      let sInv := zinv n ((s : ZMod n))
      let u1 := z * sInv
      let u2 := (r : ZMod n) * sInv
      match pAdd p (ptMul p u1.val G) (ptMul p u2.val pub) with
      | .inf => false
      | .aff x _ => x.val % n = r

/-- Model of `generateKeyPair` / `getPublicKey`: the public key is the
scalar multiple of the generator by the private scalar. -/
def getPublicKey (p : ℕ) [Fact p.Prime] (G : Pt p) (priv : ℕ) : Pt p :=
  ptMul p priv G

/-- Model of `secp256k1.getSharedSecret(privateKey, peerPublicKey)`: the
scalar multiple of the peer's public point. -/
def getSharedSecret (p : ℕ) [Fact p.Prime] (priv : ℕ) (pub : Pt p) : Pt p :=
  ptMul p priv pub

/-- Compressed SEC1 serialization of a point: parity prefix `0x02`/`0x03`
followed by the 32-byte big-endian x-coordinate (the point at infinity
has no compressed encoding; noble throws, modelled as `[]`). -/
def serializePoint (p : ℕ) : Pt p → Bytes
  | .inf => []
  | .aff x y => (if y.val % 2 = 0 then 2 else 3) :: natToBytes 32 x.val

/-- The `"dropshare"` HKDF context string as UTF-8 bytes. -/
def dropshareInfo : Bytes := [100, 114, 111, 112, 115, 104, 97, 114, 101]

/-- Model of `deriveSharedKey(privateKey, peerPublicKey)` from
`crypto.ts`: ECDH followed by HKDF-SHA256 with no salt and the fixed
`"dropshare"` context, producing 32 bytes. -/
def deriveSharedKey (p : ℕ) [Fact p.Prime] (priv : ℕ) (pub : Pt p) : Bytes :=
  hkdfSha256 (serializePoint p (getSharedSecret p priv pub)) none dropshareInfo 32


instance {e a : Type} [DecidableEq e] [DecidableEq a] : DecidableEq (Except e a) := fun x y =>
  match x, y with
  | .ok v, .ok w => if h : v = w then .isTrue (by rw [h]) else .isFalse (by simp [h])
  | .error v, .error w => if h : v = w then .isTrue (by rw [h]) else .isFalse (by simp [h])
  | .ok _, .error _ => .isFalse (by simp)
  | .error _, .ok _ => .isFalse (by simp)

/-! ## Claims about the cryptographic primitives -/

instance factPrime11 : Fact (Nat.Prime 11) := ⟨by norm_num⟩

instance factPrime2 : Fact (Nat.Prime 2) := ⟨by norm_num⟩

/-- C1: For every pair of valid secp256k1 key pairs A and B,
`deriveSharedKey(A.private, B.public)` and
`deriveSharedKey(B.private, A.public)` return byte-identical keys of
exactly 32 bytes, regardless of which side initiated. -/
theorem C1_shared_key_symmetry (p : ℕ) [Fact p.Prime] (G pubA pubB : Pt p)
    (privA privB : ℕ) (hG : ptValid p G)
    (hA : pubA = getPublicKey p G privA) (hB : pubB = getPublicKey p G privB) :
    deriveSharedKey p privA pubB = deriveSharedKey p privB pubA ∧
      (deriveSharedKey p privA pubB).length = 32 := by
  subst hA
  subst hB
  constructor
  · have hvB : ptValid p (ptMul p privB G) := ptValid_ptMul privB hG
    have hvA : ptValid p (ptMul p privA G) := ptValid_ptMul privA hG
    have hsec : ptMul p privA (ptMul p privB G) = ptMul p privB (ptMul p privA G) := by
      apply toPoint_inj (ptValid_ptMul privA hvB) (ptValid_ptMul privB hvA)
      rw [toPoint_ptMul privA hvB, toPoint_ptMul privB hvA,
        toPoint_ptMul privB hG, toPoint_ptMul privA hG,
        ← mul_nsmul, ← mul_nsmul, Nat.mul_comm]
    simp only [deriveSharedKey, getSharedSecret, getPublicKey]
    rw [hsec]
  · exact hkdfSha256_length _ _ _ _

/-- Witness for C1 on the curve `y² = x³ + 7` over `𝔽₁₁` with the valid
base point `(2, 2)` and private scalars 2 and 3. -/
theorem C1_shared_key_symmetry_witness :
    ptValid 11 (Pt.aff 2 2) ∧
      deriveSharedKey 11 2 (getPublicKey 11 (Pt.aff 2 2) 3) =
        deriveSharedKey 11 3 (getPublicKey 11 (Pt.aff 2 2) 2) ∧
      (deriveSharedKey 11 2 (getPublicKey 11 (Pt.aff 2 2) 3)).length = 32 :=
  ⟨by decide,
    (C1_shared_key_symmetry 11 (Pt.aff 2 2) _ _ 2 3 (by decide) rfl rfl).1,
    (C1_shared_key_symmetry 11 (Pt.aff 2 2) _ _ 2 3 (by decide) rfl rfl).2⟩

/-- C2: For every plaintext P and every 256-bit key K, decrypting the
output of `encryptData(P, K)` with the same key K and the IV produced by
that encryption yields exactly P (encrypt/decrypt round-trip). -/
theorem C2_encrypt_decrypt_roundtrip (data key iv : Bytes) (e : EncryptedData)
    (hkey : key.length = 32) (hiv : iv.length = 12)
    (henc : encryptData data key iv = .ok e) :
    decryptData e key = .ok data := by
  rw [encryptData, if_neg (by omega), if_neg (by omega)] at henc
  injection henc with henc
  subst henc
  have hct : (gcmCtr key iv data).length = data.length := gcmCtr_length key iv data
  have htag : (gcmTag key iv (gcmCtr key iv data)).length = 16 := gcmTag_length key iv _
  have hlen : (gcmCtr key iv data ++ gcmTag key iv (gcmCtr key iv data)).length =
      data.length + 16 := by simp [hct, htag]
  simp only [decryptData]
  rw [if_neg (show ¬(key.length ≠ 32) by omega),
    if_neg (show ¬(iv.length ≠ 12) by omega),
    if_neg (show ¬((gcmCtr key iv data ++ gcmTag key iv (gcmCtr key iv data)).length < 16)
      by rw [hlen]; omega),
    hlen]
  have hsub : data.length + 16 - 16 = (gcmCtr key iv data).length := by omega
  rw [hsub, List.take_left, List.drop_left, if_pos rfl, gcmCtr_gcmCtr]

/-- Witness for C2 with the all-zero key and IV and the one-byte
plaintext `[42]`. -/
theorem C2_encrypt_decrypt_roundtrip_witness :
    (List.replicate 32 0 : Bytes).length = 32 ∧
      encryptData [42] (List.replicate 32 0) (List.replicate 12 0) =
        .ok ⟨[228, 76, 229, 250, 207, 77, 45, 143, 93, 67, 16, 2, 111, 252, 227, 35, 206],
          List.replicate 12 0⟩ ∧
      decryptData
        ⟨[228, 76, 229, 250, 207, 77, 45, 143, 93, 67, 16, 2, 111, 252, 227, 35, 206],
          List.replicate 12 0⟩ (List.replicate 32 0) = .ok [42] :=
  ⟨rfl, by decide,
    C2_encrypt_decrypt_roundtrip [42] (List.replicate 32 0) (List.replicate 12 0) _
      (by decide) (by decide) (by decide)⟩

/-- C4: For every ciphertext produced by `encryptData` under key K₁ and
every key K₂ whose recomputed GCM authentication tag does not match the
attached tag (which is the case for a wrong key or a tampered
ciphertext, up to the negligible tag-collision probability that a
symbolic model cannot exclude), `decryptData` fails with
`authenticationFailure` and returns no partially-decrypted output. -/
theorem C4_decrypt_wrong_key_fails (data k1 iv k2 : Bytes) (e : EncryptedData)
    (hk1 : k1.length = 32) (hiv : iv.length = 12) (hk2 : k2.length = 32)
    (henc : encryptData data k1 iv = .ok e)
    (htag : gcmTag k2 e.iv (e.data.take (e.data.length - 16)) ≠
      e.data.drop (e.data.length - 16)) :
    decryptData e k2 = .error .authenticationFailure ∧
      ∀ pt, decryptData e k2 ≠ .ok pt := by
  rw [encryptData, if_neg (by omega), if_neg (by omega)] at henc
  injection henc with henc
  subst henc
  have hct : (gcmCtr k1 iv data).length = data.length := gcmCtr_length k1 iv data
  have htl : (gcmTag k1 iv (gcmCtr k1 iv data)).length = 16 := gcmTag_length k1 iv _
  have hlen : (gcmCtr k1 iv data ++ gcmTag k1 iv (gcmCtr k1 iv data)).length =
      data.length + 16 := by simp [hct, htl]
  have htag2 : gcmTag k2 iv
      ((gcmCtr k1 iv data ++ gcmTag k1 iv (gcmCtr k1 iv data)).take
        ((gcmCtr k1 iv data ++ gcmTag k1 iv (gcmCtr k1 iv data)).length - 16)) ≠
      (gcmCtr k1 iv data ++ gcmTag k1 iv (gcmCtr k1 iv data)).drop
        ((gcmCtr k1 iv data ++ gcmTag k1 iv (gcmCtr k1 iv data)).length - 16) := htag
  have hsub : data.length + 16 - 16 = (gcmCtr k1 iv data).length := by omega
  rw [hlen, hsub, List.take_left, List.drop_left] at htag2
  have hd : decryptData
      ⟨gcmCtr k1 iv data ++ gcmTag k1 iv (gcmCtr k1 iv data), iv⟩ k2 =
      .error .authenticationFailure := by
    simp only [decryptData]
    rw [if_neg (show ¬(k2.length ≠ 32) by omega),
      if_neg (show ¬(iv.length ≠ 12) by omega),
      if_neg (show ¬((gcmCtr k1 iv data ++ gcmTag k1 iv (gcmCtr k1 iv data)).length < 16)
        by rw [hlen]; omega),
      hlen, hsub, List.take_left, List.drop_left, if_neg htag2]
  exact ⟨hd, fun pt h => by rw [hd] at h; exact Except.noConfusion h⟩

/-- Witness for C4: the ciphertext of `[42]` under the all-zero key fails
authentication under the distinct key `0,1,…,31`. -/
theorem C4_decrypt_wrong_key_fails_witness :
    (List.range 32 : Bytes).length = 32 ∧ List.range 32 ≠ List.replicate 32 0 ∧
      decryptData
        ⟨[228, 76, 229, 250, 207, 77, 45, 143, 93, 67, 16, 2, 111, 252, 227, 35, 206],
          List.replicate 12 0⟩ (List.range 32) = .error .authenticationFailure :=
  ⟨by decide, by decide,
    (C4_decrypt_wrong_key_fails [42] (List.replicate 32 0) (List.replicate 12 0)
      (List.range 32) _ (by decide) (by decide) (by decide) (by decide) (by decide)).1⟩


/-! ## Support lemmas for the ECDSA claim -/

theorem bytesToNat_cons (b : Nat) (t : Bytes) :
    bytesToNat (b :: t) = b * 256 ^ t.length + bytesToNat t := by
  have key : ∀ t : Bytes, ∀ acc : Nat,
      t.foldl (fun acc b => acc * 256 + b) acc =
        acc * 256 ^ t.length + t.foldl (fun acc b => acc * 256 + b) 0 := by
    intro t
    induction t with
    | nil => intro acc; simp
    | cons c t ih =>
      intro acc
      rw [List.foldl_cons, ih, List.foldl_cons, ih (0 * 256 + c)]
      simp [pow_succ]
      ring
  rw [bytesToNat, List.foldl_cons, key, bytesToNat]
  simp

theorem mod_pow_div_mod (v e m : ℕ) (h : e < m) :
    v % 256 ^ m / 256 ^ e % 256 = v / 256 ^ e % 256 := by
  have h1 : 256 ^ e * 256 ^ (m - e) = 256 ^ m := by
    rw [← pow_add]
    congr 1
    omega
  rw [← h1, ← Nat.div_mod_eq_mod_mul_div]
  have h2 : (256 : ℕ) ∣ 256 ^ (m - e) := dvd_pow_self 256 (by omega)
  rw [Nat.mod_mod_of_dvd _ h2]

theorem natToBytes_succ (len v : ℕ) :
    natToBytes (len + 1) v = (v / 256 ^ len % 256) :: natToBytes len (v % 256 ^ len) := by
  apply List.ext_getElem
  · simp [natToBytes]
  · intro i h1 h2
    cases i with
    | zero => simp [natToBytes]
    | succ j =>
      have hj : j < len := by
        simp only [natToBytes, List.length_cons, List.length_map, List.length_range] at h2
        omega
      simp only [natToBytes, List.getElem_map, List.getElem_range, List.getElem_cons_succ]
      rw [mod_pow_div_mod _ _ _ (show len - 1 - j < len by omega)]
      have he : len + 1 - 1 - (j + 1) = len - 1 - j := by omega
      rw [he]

/-- Big-endian serialization round-trips on values within range. -/
theorem bytesToNat_natToBytes (len v : ℕ) (h : v < 256 ^ len) :
    bytesToNat (natToBytes len v) = v := by
  induction len generalizing v with
  | zero =>
    simp [natToBytes, bytesToNat]
    omega
  | succ len ih =>
    rw [natToBytes_succ, bytesToNat_cons, natToBytes_length,
      ih (v % 256 ^ len) (Nat.mod_lt _ (by positivity))]
    have hdiv : v / 256 ^ len < 256 := by
      rw [Nat.div_lt_iff_lt_mul (by positivity)]
      rw [pow_succ] at h
      omega
    rw [Nat.mod_eq_of_lt hdiv]
    exact Nat.div_add_mod' v (256 ^ len)

theorem lt_two_pow_bitLenF : ∀ f v, v ≤ f → v < 2 ^ bitLenF f v := by
  intro f
  induction f with
  | zero =>
    intro v hv
    simp [bitLenF]
    omega
  | succ f ih =>
    intro v hv
    by_cases h0 : v = 0
    · subst h0
      simp [bitLenF]
    · have he : bitLenF (f + 1) v = bitLenF f (v / 2) + 1 := by
        simp [bitLenF, h0]
      have ihv := ih (v / 2) (by omega)
      rw [he, pow_succ]
      omega

theorem lt_two_pow_bitLen (v : ℕ) : v < 2 ^ bitLen v :=
  lt_two_pow_bitLenF v v le_rfl

/-- The scalar field order fits in `nBytesOf n` bytes. -/
theorem n_lt_bytePow (n : ℕ) : n < 256 ^ nBytesOf n := by
  have h1 : n < 2 ^ bitLen n := lt_two_pow_bitLen n
  have h2 : bitLen n ≤ 8 * nBytesOf n := by
    unfold nBytesOf
    omega
  calc n < 2 ^ bitLen n := h1
    _ ≤ 2 ^ (8 * nBytesOf n) := Nat.pow_le_pow_right (by omega) h2
    _ = 256 ^ nBytesOf n := by
      rw [show (256 : ℕ) = 2 ^ 8 from rfl, ← pow_mul]

section Order

open WeierstrassCurve.Affine

variable {p n : ℕ} [Fact p.Prime] [Fact n.Prime] {G : Pt p}

theorem nsmul_order_zero (hG : ptValid p G) (hord : ptMul p n G = Pt.inf) :
    n • toPoint G = 0 := by
  rw [← toPoint_ptMul n hG, hord, toPoint_inf]

theorem nsmul_mod (hG : ptValid p G) (hord : ptMul p n G = Pt.inf) (a : ℕ) :
    a • toPoint G = (a % n) • toPoint G := by
  conv_lhs => rw [← Nat.div_add_mod a n]
  rw [add_nsmul, mul_nsmul, nsmul_order_zero hG hord, nsmul_zero, zero_add]

theorem addOrderOf_toPoint (hG : ptValid p G) (hGinf : G ≠ Pt.inf)
    (hord : ptMul p n G = Pt.inf) : addOrderOf (toPoint G) = n := by
  have h0 := nsmul_order_zero hG hord
  have hdvd := addOrderOf_dvd_of_nsmul_eq_zero h0
  rcases (Nat.Prime.eq_one_or_self_of_dvd (Fact.out) _ hdvd) with h1 | h1
  · exfalso
    have := AddMonoid.addOrderOf_eq_one_iff.mp h1
    cases G with
    | inf => exact hGinf rfl
    | aff x y =>
      rw [toPoint_aff hG] at this
      exact Point.some_ne_zero _ this
  · exact h1

theorem nsmul_toPoint_eq_zero_iff (hG : ptValid p G) (hGinf : G ≠ Pt.inf)
    (hord : ptMul p n G = Pt.inf) (a : ℕ) :
    a • toPoint G = 0 ↔ n ∣ a := by
  rw [← addOrderOf_dvd_iff_nsmul_eq_zero, addOrderOf_toPoint hG hGinf hord]

/-- Reduce a natural scalar mod `n` via a cast to `ZMod n`. -/
theorem nsmul_toPoint_cast (hG : ptValid p G) (hord : ptMul p n G = Pt.inf) (a : ℕ) :
    a • toPoint G = ((a : ZMod n)).val • toPoint G := by
  rw [ZMod.val_natCast, ← nsmul_mod hG hord]

end Order

/-- Characterization of a successful run of the ECDSA signing loop. -/
theorem signLoop_inv (p n : ℕ) [Fact p.Prime] [Fact n.Prime] (G : Pt p)
    (z d : ZMod n) : ∀ fuel kv r s,
    signLoop p n G z d fuel kv = some (r, s) →
    ∃ k x y, 1 ≤ k ∧ k < n ∧ ptMul p k G = Pt.aff x y ∧
      r = ((x.val : ZMod n)) ∧ r ≠ 0 ∧
      ∃ s₀ : ZMod n, s₀ = ((k : ZMod n))⁻¹ * (z + r * d) ∧ s₀ ≠ 0 ∧
        (s = s₀ ∨ s = -s₀) ∧ s ≠ 0 ∧ s.val ≤ n / 2 := by
  intro fuel
  induction fuel with
  | zero => intro kv r s h; exact absurd h (by simp [signLoop])
  | succ f ih =>
    intro kv r s h
    simp only [signLoop] at h
    by_cases hk : 1 ≤ bits2int n ((hmacSha256 kv.1 kv.2).take (nBytesOf n)) ∧
        bits2int n ((hmacSha256 kv.1 kv.2).take (nBytesOf n)) < n
    · rw [if_pos hk] at h
      set kNat := bits2int n ((hmacSha256 kv.1 kv.2).take (nBytesOf n)) with hkdef
      split at h
      · exact ih _ r s h
      · rename_i x y hR
        by_cases hr0 : ((x.val : ZMod n)) = 0
        · rw [if_pos hr0] at h
          exact ih _ r s h
        · rw [if_neg hr0] at h
          by_cases hs0 : zinv n ((kNat : ZMod n)) * (z + ((x.val : ZMod n)) * d) = 0
          · rw [if_pos hs0] at h
            exact ih _ r s h
          · rw [if_neg hs0] at h
            injection h with h
            injection h with hr hs
            subst hr
            refine ⟨kNat, x, y, hk.1, hk.2, hR, rfl, hr0, _,
              (zinv_eq_inv n ((kNat : ZMod n))) ▸ rfl, hs0, ?_, ?_, ?_⟩
            · by_cases hhi : n / 2 <
                  (zinv n ((kNat : ZMod n)) * (z + ((x.val : ZMod n)) * d)).val
              · rw [if_pos hhi] at hs
                exact Or.inr hs.symm
              · rw [if_neg hhi] at hs
                exact Or.inl hs.symm
            · by_cases hhi : n / 2 <
                  (zinv n ((kNat : ZMod n)) * (z + ((x.val : ZMod n)) * d)).val
              · rw [if_pos hhi] at hs
                rw [← hs]
                simpa using hs0
              · rw [if_neg hhi] at hs
                rw [← hs]
                exact hs0
            · by_cases hhi : n / 2 <
                  (zinv n ((kNat : ZMod n)) * (z + ((x.val : ZMod n)) * d)).val
              · rw [if_pos hhi] at hs
                rw [← hs, ZMod.neg_val, if_neg hs0]
                have := ZMod.val_lt (zinv n ((kNat : ZMod n)) * (z + ((x.val : ZMod n)) * d))
                omega
              · rw [if_neg hhi] at hs
                rw [← hs]
                omega
    · rw [if_neg hk] at h
      exact ih _ r s h


/-- The `u₁ = z·s⁻¹` scalar computed by `verifyChallenge` from the
challenge hash and the parsed signature. -/
def verifyU1 (n : ℕ) [Fact n.Prime] (challenge sig : Bytes) : ZMod n :=
  ((bits2int n (sha256 challenge) : ℕ) : ZMod n) *
    zinv n ((bytesToNat (sig.drop (nBytesOf n)) : ZMod n))

/-- The `u₂ = r·s⁻¹` scalar computed by `verifyChallenge` from the parsed
signature. -/
def verifyU2 (n : ℕ) [Fact n.Prime] (sig : Bytes) : ZMod n :=
  ((bytesToNat (sig.take (nBytesOf n)) : ZMod n)) *
    zinv n ((bytesToNat (sig.drop (nBytesOf n)) : ZMod n))

/-- Unfolding of `verifyChallenge` into its guard chain and final
point-equation check. -/
theorem verifyChallenge_eq_match (p n : ℕ) [Fact p.Prime] [Fact n.Prime]
    (G : Pt p) (challenge sig : Bytes) (pub : Pt p) :
    verifyChallenge p n G challenge sig pub =
      if sig.length ≠ 2 * nBytesOf n then false
      else if bytesToNat (sig.take (nBytesOf n)) = 0 ∨
          n ≤ bytesToNat (sig.take (nBytesOf n)) ∨
          bytesToNat (sig.drop (nBytesOf n)) = 0 ∨
          n ≤ bytesToNat (sig.drop (nBytesOf n)) then false
      else if n / 2 < bytesToNat (sig.drop (nBytesOf n)) then false
      else if ¬ ptValid p pub ∨ pub = Pt.inf then false
      else
        match pAdd p (ptMul p (verifyU1 n challenge sig).val G)
            (ptMul p (verifyU2 n sig).val pub) with
        | .inf => false
        | .aff x _ => decide (x.val % n = bytesToNat (sig.take (nBytesOf n))) := by
  simp only [verifyChallenge, verifyU1, verifyU2]

/-- C5: For every 32-byte challenge C and every signing key pair
`(priv, pub)`, `verifyChallenge(C, signChallenge(C, priv), pub)` returns
`true`; verifying the same signature against a different public key
returns `false` whenever the recomputed ECDSA point equation does not
hold for that key (which is the case for any other key, up to the
negligible collision probability that a symbolic model cannot exclude);
and `verifyChallenge` returns `false` rather than throwing on malformed
signature bytes of the wrong length. -/
theorem C5_challenge_response_roundtrip
    (p n : ℕ) [Fact p.Prime] [Fact n.Prime] (G pub : Pt p) (fuel priv : ℕ)
    (challenge sig : Bytes)
    (hG : ptValid p G) (hGinf : G ≠ Pt.inf) (hord : ptMul p n G = Pt.inf)
    (hpriv : ¬ n ∣ priv) (hpub : pub = getPublicKey p G priv)
    (hsig : signChallenge p n G fuel challenge priv = some sig) :
    verifyChallenge p n G challenge sig pub = true ∧
      (∀ pub' x y,
        pAdd p (ptMul p (verifyU1 n challenge sig).val G)
          (ptMul p (verifyU2 n sig).val pub') = Pt.aff x y →
        x.val % n ≠ bytesToNat (sig.take (nBytesOf n)) →
        verifyChallenge p n G challenge sig pub' = false) ∧
      (∀ bad : Bytes, bad.length ≠ 2 * nBytesOf n →
        verifyChallenge p n G challenge bad pub = false) := by
  have hnz : NeZero n := ⟨Nat.Prime.ne_zero Fact.out⟩
  -- unpack the signature
  simp only [signChallenge] at hsig
  split at hsig
  · exact absurd hsig (by simp)
  · rename_i r s hloop
    injection hsig with hsig
    obtain ⟨k, x, y, hk1, hkn, hR, hrdef, hrne, s₀, hs₀def, hs₀ne, hcase, hsne, hslow⟩ :=
      signLoop_inv p n G _ _ fuel _ r s hloop
    have hrlt : r.val < n := ZMod.val_lt r
    have hslt : s.val < n := ZMod.val_lt s
    have hrv256 : r.val < 256 ^ nBytesOf n := lt_trans hrlt (n_lt_bytePow n)
    have hsv256 : s.val < 256 ^ nBytesOf n := lt_trans hslt (n_lt_bytePow n)
    have htake : sig.take (nBytesOf n) = natToBytes (nBytesOf n) r.val := by
      rw [← hsig]
      exact List.take_left' (natToBytes_length _ _)
    have hdrop : sig.drop (nBytesOf n) = natToBytes (nBytesOf n) s.val := by
      rw [← hsig]
      exact List.drop_left' (natToBytes_length _ _)
    have hbr : bytesToNat (sig.take (nBytesOf n)) = r.val := by
      rw [htake, bytesToNat_natToBytes _ _ hrv256]
    have hbs : bytesToNat (sig.drop (nBytesOf n)) = s.val := by
      rw [hdrop, bytesToNat_natToBytes _ _ hsv256]
    have hlensig : sig.length = 2 * nBytesOf n := by
      rw [← hsig]
      simp
      omega
    have hrv0 : r.val ≠ 0 := fun h => hrne ((ZMod.val_eq_zero r).mp h)
    have hsv0 : s.val ≠ 0 := fun h => hsne ((ZMod.val_eq_zero s).mp h)
    have hpubv : ptValid p pub := by
      rw [hpub]
      exact ptValid_ptMul priv hG
    have hpubinf : pub ≠ Pt.inf := by
      intro he
      apply hpriv
      apply (nsmul_toPoint_eq_zero_iff hG hGinf hord priv).mp
      rw [← toPoint_ptMul priv hG]
      show toPoint (getPublicKey p G priv) = 0
      rw [← hpub, he, toPoint_inf]
    -- the scalars recomputed by the verifier
    have hsvcast : ((s.val : ℕ) : ZMod n) = s := ZMod.natCast_rightInverse s
    have hrvcast : ((r.val : ℕ) : ZMod n) = r := ZMod.natCast_rightInverse r
    have hu1 : verifyU1 n challenge sig =
        ((bits2int n (sha256 challenge) : ℕ) : ZMod n) * s⁻¹ := by
      rw [verifyU1, hbs, hsvcast, zinv_eq_inv]
    have hu2 : verifyU2 n sig = r * s⁻¹ := by
      rw [verifyU2, hbr, hbs, hsvcast, hrvcast, zinv_eq_inv]
    have hkc : ((k : ℕ) : ZMod n).val = k := ZMod.val_cast_of_lt hkn
    have hkcne : ((k : ℕ) : ZMod n) ≠ 0 := by
      intro h
      rw [← ZMod.val_eq_zero, hkc] at h
      omega
    -- the recomputed point is `±k·G`
    set z : ZMod n := ((bits2int n (sha256 challenge) : ℕ) : ZMod n) with hzdef
    set d : ZMod n := ((priv : ℕ) : ZMod n) with hddef
    have hzrd : z + r * d = ((k : ℕ) : ZMod n) * s₀ := by
      rw [hs₀def, ← mul_assoc, mul_inv_cancel₀ hkcne, one_mul]
    have hTval : ∀ pb : Pt p, ptValid p pb →
        ptValid p (pAdd p (ptMul p (verifyU1 n challenge sig).val G)
          (ptMul p (verifyU2 n sig).val pb)) := by
      intro pb hpb
      exact ptValid_pAdd (ptValid_ptMul _ hG) (ptValid_ptMul _ hpb)
    have hTmap : toPoint (pAdd p (ptMul p (verifyU1 n challenge sig).val G)
        (ptMul p (verifyU2 n sig).val pub)) =
        ((verifyU1 n challenge sig + d * verifyU2 n sig).val) • toPoint G := by
      rw [toPoint_pAdd (ptValid_ptMul _ hG) (ptValid_ptMul _ hpubv),
        toPoint_ptMul _ hG, toPoint_ptMul _ hpubv, hpub]
      show _ • toPoint G + _ • toPoint (ptMul p priv G) = _
      have e1 : (((verifyU1 n challenge sig).val : ℕ) : ZMod n) =
          verifyU1 n challenge sig := ZMod.natCast_rightInverse _
      have e2 : (((verifyU2 n sig).val : ℕ) : ZMod n) =
          verifyU2 n sig := ZMod.natCast_rightInverse _
      have hcast : (((verifyU1 n challenge sig).val +
          priv * (verifyU2 n sig).val : ℕ) : ZMod n) =
          verifyU1 n challenge sig + d * verifyU2 n sig := by
        rw [Nat.cast_add, Nat.cast_mul, e1, e2, hddef]
      rw [toPoint_ptMul priv hG, ← mul_nsmul, ← add_nsmul,
        nsmul_toPoint_cast hG hord, hcast]
    have hcsum : verifyU1 n challenge sig + d * verifyU2 n sig =
        (z + r * d) * s⁻¹ := by
      rw [hu1, hu2]
      ring
    have hxyv : ptValid p (Pt.aff x y) := hR ▸ ptValid_ptMul k hG
    -- case split on the low-s normalization
    have hmain : pAdd p (ptMul p (verifyU1 n challenge sig).val G)
        (ptMul p (verifyU2 n sig).val pub) = Pt.aff x y ∨
        pAdd p (ptMul p (verifyU1 n challenge sig).val G)
          (ptMul p (verifyU2 n sig).val pub) = Pt.aff x (-y) := by
      rcases hcase with hcase | hcase
      · left
        have hc1 : verifyU1 n challenge sig + d * verifyU2 n sig =
            ((k : ℕ) : ZMod n) := by
          rw [hcsum, hcase, hzrd, mul_inv_cancel_right₀ hs₀ne]
        apply toPoint_inj (hTval pub hpubv) hxyv
        rw [hTmap, hc1, hkc, ← toPoint_ptMul k hG, hR]
      · right
        have hc2 : verifyU1 n challenge sig + d * verifyU2 n sig =
            -((k : ℕ) : ZMod n) := by
          rw [hcsum, hcase, hzrd, inv_neg, mul_neg, mul_inv_cancel_right₀ hs₀ne]
        have hpn := pNeg_spec hxyv
        have hnegv : ptValid p (Pt.aff x (-y)) := hpn.1
        have hnege : toPoint (Pt.aff x (-y)) = -toPoint (Pt.aff x y) := hpn.2
        apply toPoint_inj (hTval pub hpubv) hnegv
        have hnk : (n - k) • toPoint G = -(k • toPoint G) := by
          apply eq_neg_of_add_eq_zero_left
          rw [← add_nsmul, show n - k + k = n from by omega,
            nsmul_order_zero hG hord]
        rw [hnege, hTmap, hc2, ZMod.neg_val, if_neg hkcne, hkc, hnk,
          ← toPoint_ptMul k hG, hR]
    -- part (a)
    refine ⟨?_, ?_, ?_⟩
    · rw [verifyChallenge_eq_match, if_neg (by omega), hbr, hbs,
        if_neg (by push_neg; exact ⟨hrv0, by omega, hsv0, by omega⟩),
        if_neg (by omega),
        if_neg (by push_neg; exact ⟨hpubv, hpubinf⟩)]
      rcases hmain with hT | hT
      · rw [hT]
        show decide (x.val % n = r.val) = true
        apply decide_eq_true
        rw [hrdef, ZMod.val_natCast]
      · rw [hT]
        show decide (x.val % n = r.val) = true
        apply decide_eq_true
        rw [hrdef, ZMod.val_natCast]
    -- part (b)
    · intro pub' x' y' hT hne
      rw [verifyChallenge_eq_match]
      by_cases h1 : sig.length ≠ 2 * nBytesOf n
      · rw [if_pos h1]
      · rw [if_neg h1]
        by_cases h2 : bytesToNat (sig.take (nBytesOf n)) = 0 ∨
            n ≤ bytesToNat (sig.take (nBytesOf n)) ∨
            bytesToNat (sig.drop (nBytesOf n)) = 0 ∨
            n ≤ bytesToNat (sig.drop (nBytesOf n))
        · rw [if_pos h2]
        · rw [if_neg h2]
          by_cases h3 : n / 2 < bytesToNat (sig.drop (nBytesOf n))
          · rw [if_pos h3]
          · rw [if_neg h3]
            by_cases h4 : ¬ ptValid p pub' ∨ pub' = Pt.inf
            · rw [if_pos h4]
            · rw [if_neg h4]
              rw [hT]
              show decide (x'.val % n = bytesToNat (sig.take (nBytesOf n))) = false
              exact decide_eq_false hne
    -- part (c)
    · intro bad hbad
      rw [verifyChallenge_eq_match, if_pos hbad]


/-- Witness for C5 on the curve `y² = x³ + 7` over `𝔽₁₁` with the
order-2 base point `(5, 0)`: signing a concrete 32-byte challenge with
private scalar 1 verifies against the matching public key, the same
signature is rejected for the distinct valid public key `(2, 2)`, and a
malformed 3-byte signature is rejected without an exception. -/
theorem C5_challenge_response_roundtrip_witness :
    ptValid 11 (Pt.aff 5 0) ∧ ptMul 11 2 (Pt.aff 5 0) = Pt.inf ∧ ¬ (2 ∣ 1) ∧
      signChallenge 11 2 (Pt.aff 5 0) 1 (List.replicate 31 0 ++ [2]) 1 = some [1, 1] ∧
      verifyChallenge 11 2 (Pt.aff 5 0) (List.replicate 31 0 ++ [2]) [1, 1]
        (getPublicKey 11 (Pt.aff 5 0) 1) = true ∧
      verifyChallenge 11 2 (Pt.aff 5 0) (List.replicate 31 0 ++ [2]) [1, 1]
        (Pt.aff 2 2) = false ∧
      verifyChallenge 11 2 (Pt.aff 5 0) (List.replicate 31 0 ++ [2]) [1, 2, 3]
        (getPublicKey 11 (Pt.aff 5 0) 1) = false := by
  have h := C5_challenge_response_roundtrip 11 2 (Pt.aff 5 0)
    (getPublicKey 11 (Pt.aff 5 0) 1) 1 1 (List.replicate 31 0 ++ [2]) [1, 1]
    (by decide) (by decide) (by decide) (by decide) rfl (by decide)
  exact ⟨by decide, by decide, by decide, by decide, h.1,
    h.2.1 (Pt.aff 2 2) 2 2 (by decide) (by decide), h.2.2 [1, 2, 3] (by decide)⟩


/-! ## The peer/session state machine (from `src/hooks/usePeer.ts`)

The hook's React state (`useState`/`useRef`) is modelled as a record, and
`handlePeerMessage` as a function from a state, the delivering
connection's peer id, and a message, to a new state plus the list of
messages sent (`conn.send` effects), each tagged with the target peer.
JavaScript `Record<string, T>` objects are modelled as association lists
with insert-or-update semantics.  Randomness (`generateChallenge`,
per-chunk IVs, `crypto.randomUUID`) is passed in explicitly.  The
`@/lib/crypto` functions are a parameter (`CryptoOps`), instantiated with
the executable models above.  Triggering the browser download of a fully
reassembled file is modelled by appending to `savedFiles`. -/

/-- Association-list operations with JavaScript-object semantics. -/
def alGet {V : Type} (l : List (String × V)) (k : String) : Option V :=
  (l.find? (fun e => e.1 = k)).map (·.2)

/-- Insert or update a key (JavaScript objects hold one entry per key;
an existing entry is updated in place, otherwise the key is appended). -/
def alSet {V : Type} : List (String × V) → String → V → List (String × V)
  | [], k, v => [(k, v)]
  | e :: t, k, v => if e.1 = k then (k, v) :: t else e :: alSet t k v

/-- Delete a key. -/
def alDel {V : Type} (l : List (String × V)) (k : String) : List (String × V) :=
  l.filter (fun e => ¬ e.1 = k)

/-- A key pair held by the local session. -/
structure KeyPair where
  publicKey : Bytes
  privateKey : Bytes
deriving DecidableEq

/-- The `File` objects handed to the hook: a name and its contents
(`size` is the byte length of the contents). -/
structure FileData where
  name : String
  content : Bytes
deriving DecidableEq

/-- A file staged for sharing (`SharedFile`), with its generated id. -/
structure SharedFile where
  file : FileData
  id : String
deriving DecidableEq

/-- A connected peer (`ConnectedPeer`); the `DataConnection` object is
identified by the peer id. -/
structure ConnectedPeer where
  id : String
  name : String
  isVerified : Bool
  sharedKey : Option Bytes
deriving DecidableEq

/-- A peer's recorded public keys and the derived shared key
(`peerKeysRef`). -/
structure PeerKeysEntry where
  dhPublicKey : Bytes
  signingPublicKey : Bytes
  sharedKey : Option Bytes
deriving DecidableEq

/-- A receive buffer for one in-flight file (`downloadBuffersRef`):
`new Array(totalChunks)` with empty slots, plus the metadata. -/
structure DownloadBuffer where
  chunks : List (Option Bytes)
  name : String
  size : Nat
deriving DecidableEq

/-- The manifest entry for one shared file. -/
structure FileInfo where
  id : String
  name : String
  size : Nat
deriving DecidableEq

/-- The `connectionStatus` state. -/
inductive ConnStatus where
  | connecting
  | verifying
  | connected
  | error
  | disconnected
deriving DecidableEq

/-- The wire messages of the protocol (`PeerMessage`).  Key material and
challenge payloads travel hex-encoded over the wire
(`arrayBufferToBase64`); since the encoding is a bijection they are
modelled as the byte strings themselves.  `FILE_METADATA.size` is sent as
a decimal string and parsed back with `parseInt`, a round-trip modelled
as the number itself. -/
inductive PeerMessage where
  | hello (name : String)
  | keyExchange (dhPublicKey signingPublicKey : Bytes)
  | challenge (challenge : Bytes)
  | challengeResponse (signature : Bytes)
  | verificationComplete
  | disconnected
  | filesUpdate (files : List FileInfo)
  | requestFile (fileId : String)
  | fileMetadata (fileId name : String) (size totalChunks : Nat) (encrypted : Bool)
  | fileChunk (fileId : String) (chunkIndex : Nat) (data : Bytes) (isLast : Bool)
      (encrypted : Bool) (iv : Option Bytes)
deriving DecidableEq

/-- An outbound `conn.send` effect: target peer id and message. -/
abbrev OutMsg := String × PeerMessage

/-- The state of the `usePeer` hook. -/
structure PeerState where
  isSender : Bool
  sharedFiles : List SharedFile
  connectedPeers : List ConnectedPeer
  receivedFiles : List FileInfo
  downloadProgress : List (String × ℚ)
  isConnected : Bool
  connectionStatus : ConnStatus
  downloadBuffers : List (String × DownloadBuffer)
  dhKeyPair : Option KeyPair
  signingKeyPair : Option KeyPair
  peerKeys : List (String × PeerKeysEntry)
  challenges : List (String × Bytes)
  senderConnection : Option String
  savedFiles : List (String × Bytes)
deriving DecidableEq

/-- The `@/lib/crypto` interface consumed by the hook.  `decryptData`
and `encryptData` return `none` where the source would throw, and
`signChallenge` likewise; `deriveSharedKey` returns `none` where
`secp256k1.getSharedSecret` throws (e.g. an off-curve peer public key,
which `importPublicKey` does not validate). -/
structure CryptoOps where
  deriveSharedKey : Bytes → Bytes → Option Bytes
  signChallenge : Bytes → Bytes → Option Bytes
  verifyChallenge : Bytes → Bytes → Bytes → Bool
  encryptData : Bytes → Bytes → Bytes → Option Bytes
  decryptData : Bytes → Bytes → Bytes → Option Bytes

/-- The bytes actually stored for an incoming chunk: the decryption of
the payload when it is flagged encrypted, carries an IV, a sender
connection exists and a shared key is known — falling back to the raw
payload bytes when decryption fails — and the raw payload otherwise. -/
def chunkStoredData (C : CryptoOps) (s : PeerState) (data : Bytes)
    (encrypted : Bool) (iv : Option Bytes) : Bytes :=
  if encrypted ∧ iv.isSome ∧ s.senderConnection.isSome then
    match (s.senderConnection.bind (alGet s.peerKeys)).bind (·.sharedKey) with
    | some key =>
      match C.decryptData data (iv.getD []) key with
      | some ptx => ptx
      | none => data
    | none => data
  else data

/-- The fixed 64 KiB chunk size (`CHUNK_SIZE = 64 * 1024`). -/
def CHUNK_SIZE : Nat := 64 * 1024

/-- The manifest of the currently shared files, as broadcast in
`FILES_UPDATE`. -/
def manifestOf (files : List SharedFile) : List FileInfo :=
  files.map (fun sf => ⟨sf.id, sf.file.name, sf.file.content.length⟩)

/-- Model of `sendFileToReceiver(sharedFile, conn)`: one `FILE_METADATA`
message followed by the chunk messages, slicing `CHUNK_SIZE` bytes per
chunk and encrypting each slice when a shared key exists for the target
peer (falling back to the cleartext slice, still flagged `encrypted`,
when encryption throws).  `ivs` supplies the fresh random IV for each
chunk index. -/
def sendFileToReceiver (C : CryptoOps) (ivs : Nat → Bytes) (s : PeerState)
    (sf : SharedFile) (conn : String) : List OutMsg :=
  let size := sf.file.content.length
  let totalChunks := (size + CHUNK_SIZE - 1) / CHUNK_SIZE
  let sharedKey := (alGet s.peerKeys conn).bind (·.sharedKey)
  let useEncryption := sharedKey.isSome
  (conn, .fileMetadata sf.id sf.file.name size totalChunks useEncryption) ::
    (List.range totalChunks).map (fun i =>
      let chunk := ((sf.file.content.drop (i * CHUNK_SIZE)).take
        (min (i * CHUNK_SIZE + CHUNK_SIZE) size - i * CHUNK_SIZE))
      let enc := match sharedKey with
        | some key => (C.encryptData chunk key (ivs i)).map (fun ct => (ct, ivs i))
        | none => none
      match enc with
      | some (ct, iv) =>
        (conn, .fileChunk sf.id i ct (i = totalChunks - 1) useEncryption (some iv))
      | none =>
        (conn, .fileChunk sf.id i chunk (i = totalChunks - 1) useEncryption none))

/-- Model of `handlePeerMessage(message, conn)`.  `rnd` is the value
`generateChallenge()` would return; `ivs` the per-chunk IVs used when a
`REQUEST_FILE` triggers a send. -/
def handlePeerMessage (C : CryptoOps) (rnd : Bytes) (ivs : Nat → Bytes)
    (s : PeerState) (conn : String) (msg : PeerMessage) : PeerState × List OutMsg :=
  match msg with
  | .hello name =>
    let s1 := { s with connectedPeers :=
      s.connectedPeers.filter (fun q => ¬ q.id = conn) ++
        [⟨conn, name, false, none⟩] }
    match s.dhKeyPair, s.signingKeyPair with
    | some dh, some sk =>
      (s1, [(conn, .keyExchange dh.publicKey sk.publicKey)])
    | _, _ => (s1, [])
  | .keyExchange dhPub signPub =>
    -- The source stores the entry before deriving the shared key; when
    -- `deriveSharedKey` throws, the catch only sets the error status,
    -- leaving the stored entry without a key, sending nothing, and
    -- leaving any earlier challenge outstanding.
    match s.dhKeyPair with
    | some dh =>
      match C.deriveSharedKey dh.privateKey dhPub with
      | some key =>
        let s1 := { s with peerKeys := alSet s.peerKeys conn ⟨dhPub, signPub, some key⟩ }
        let replies :=
          match s.isSender, s.signingKeyPair with
          | false, some sk => [(conn, PeerMessage.keyExchange dh.publicKey sk.publicKey)]
          | _, _ => []
        let s2 := { s1 with challenges := alSet s1.challenges conn rnd }
        (s2, replies ++ [(conn, .challenge rnd)])
      | none =>
        let s1 := { s with peerKeys := alSet s.peerKeys conn ⟨dhPub, signPub, none⟩ }
        ({ s1 with connectionStatus := .error }, [])
    | none =>
      let s1 := { s with peerKeys := alSet s.peerKeys conn ⟨dhPub, signPub, none⟩ }
      let s2 := { s1 with challenges := alSet s1.challenges conn rnd }
      (s2, [(conn, .challenge rnd)])
  | .challenge c =>
    match s.signingKeyPair with
    | some sk =>
      match C.signChallenge c sk.privateKey with
      | some sig => (s, [(conn, .challengeResponse sig)])
      | none => ({ s with connectionStatus := .error }, [])
    | none => (s, [])
  | .challengeResponse sig =>
    match alGet s.challenges conn, alGet s.peerKeys conn with
    | some ch, some pk =>
      if C.verifyChallenge ch sig pk.signingPublicKey then
        let s1 := { s with
          connectedPeers := s.connectedPeers.map (fun peer : ConnectedPeer =>
            if peer.id = conn then
              { peer with isVerified := true, sharedKey := pk.sharedKey }
            else peer),
          connectionStatus := .connected }
        let s2 := { s1 with challenges := alDel s1.challenges conn }
        (s2, [(conn, .verificationComplete),
              (conn, .filesUpdate (manifestOf s.sharedFiles))])
      else
        let s1 := { s with connectionStatus := .error }
        let s2 := { s1 with challenges := alDel s1.challenges conn }
        (s2, [])
    | _, _ => (s, [])
  | .verificationComplete =>
    ({ s with connectionStatus := .connected, isConnected := true }, [])
  | .disconnected =>
    ({ s with connectionStatus := .disconnected, isConnected := false }, [])
  | .filesUpdate files =>
    ({ s with receivedFiles := files }, [])
  | .requestFile fileId =>
    match s.sharedFiles.find? (fun sf => sf.id = fileId) with
    | some sf => (s, sendFileToReceiver C ivs s sf conn)
    | none => (s, [])
  | .fileMetadata fileId name size totalChunks _ =>
    ({ s with
      downloadBuffers := alSet s.downloadBuffers fileId
        ⟨List.replicate totalChunks none, name, size⟩,
      downloadProgress := alSet s.downloadProgress fileId 0 }, [])
  | .fileChunk fileId chunkIndex data _ encrypted iv =>
    match alGet s.downloadBuffers fileId with
    | none => (s, [])
    | some buf =>
      let chunkData := chunkStoredData C s data encrypted iv
      let chunks :=
        if buf.chunks.getD chunkIndex none = none then
          buf.chunks.set chunkIndex (some chunkData)
        else buf.chunks
      let received := chunks.countP (·.isSome)
      let progress : ℚ := ((received : ℚ) / (chunks.length : ℚ)) * 100
      let s1 := { s with
        downloadBuffers := alSet s.downloadBuffers fileId { buf with chunks := chunks },
        downloadProgress := alSet s.downloadProgress fileId progress }
      if received = chunks.length then
        ({ s1 with
          savedFiles := s1.savedFiles ++
            [(buf.name, (chunks.map (fun c => c.getD [])).flatten)],
          downloadBuffers := alDel s1.downloadBuffers fileId,
          downloadProgress := alDel s1.downloadProgress fileId }, [])
      else (s1, [])

/-- Model of `addFiles(files)`: append the new files (ids already
generated), mark the session as a sender, and broadcast the updated
manifest to every connected peer. -/
def addFiles (s : PeerState) (newFiles : List SharedFile) : PeerState × List OutMsg :=
  let updated := s.sharedFiles ++ newFiles
  ({ s with sharedFiles := updated, isSender := true },
    s.connectedPeers.map (fun peer => (peer.id, PeerMessage.filesUpdate (manifestOf updated))))

/-- Model of `removeFile(fileId)`: drop the file and broadcast the
updated manifest to every connected peer. -/
def removeFile (s : PeerState) (fileId : String) : PeerState × List OutMsg :=
  let updated := s.sharedFiles.filter (fun sf => ¬ sf.id = fileId)
  ({ s with sharedFiles := updated },
    s.connectedPeers.map (fun peer => (peer.id, PeerMessage.filesUpdate (manifestOf updated))))


/-! ## Association-list and slot-array lemmas -/

theorem alGet_cons {V : Type} (e : String × V) (t : List (String × V)) (k : String) :
    alGet (e :: t) k = if e.1 = k then some e.2 else alGet t k := by
  simp only [alGet, List.find?]
  by_cases h : e.1 = k
  · simp [h]
  · simp [h]

theorem alGet_alSet_self {V : Type} (l : List (String × V)) (k : String) (v : V) :
    alGet (alSet l k v) k = some v := by
  induction l with
  | nil => simp [alSet, alGet_cons]
  | cons e t ih =>
    by_cases h : e.1 = k
    · simp [alSet, h, alGet_cons]
    · simp [alSet, h, alGet_cons, ih]

theorem alGet_alSet_ne {V : Type} (l : List (String × V)) (k k' : String) (v : V)
    (h : k' ≠ k) : alGet (alSet l k v) k' = alGet l k' := by
  induction l with
  | nil => simp [alSet, alGet_cons, alGet, Ne.symm h]
  | cons e t ih =>
    by_cases he : e.1 = k
    · rw [alSet, if_pos he, alGet_cons, alGet_cons, if_neg (by simpa using Ne.symm h),
        if_neg (by rw [he]; simpa using Ne.symm h)]
    · rw [alSet, if_neg he, alGet_cons, alGet_cons, ih]

theorem alSet_alSet {V : Type} (l : List (String × V)) (k : String) (v w : V) :
    alSet (alSet l k v) k w = alSet l k w := by
  induction l with
  | nil => simp [alSet]
  | cons e t ih =>
    by_cases h : e.1 = k
    · simp [alSet, h]
    · simp [alSet, h, ih]

theorem alDel_cons {V : Type} (e : String × V) (t : List (String × V)) (k : String) :
    alDel (e :: t) k = if e.1 = k then alDel t k else e :: alDel t k := by
  simp only [alDel, List.filter]
  by_cases h : e.1 = k
  · simp [h]
  · simp [h]

theorem alDel_alSet {V : Type} (l : List (String × V)) (k : String) (v : V) :
    alDel (alSet l k v) k = alDel l k := by
  induction l with
  | nil => simp [alSet, alDel_cons, alDel]
  | cons e t ih =>
    by_cases h : e.1 = k
    · rw [alSet, if_pos h, alDel_cons, if_pos rfl, alDel_cons, if_pos h]
    · rw [alSet, if_neg h, alDel_cons, if_neg h, alDel_cons, if_neg h, ih]

theorem alSet_self {V : Type} (l : List (String × V)) (k : String) (v : V)
    (h : alGet l k = some v) : alSet l k v = l := by
  induction l with
  | nil => simp [alGet] at h
  | cons e t ih =>
    by_cases he : e.1 = k
    · rw [alGet_cons, if_pos he] at h
      injection h with h
      rw [alSet, if_pos he, ← h, ← he]
    · rw [alGet_cons, if_neg he] at h
      rw [alSet, if_neg he, ih h]

theorem getD_set_self (l : List (Option Bytes)) (i : Nat) (v : Option Bytes)
    (h : i < l.length) : (l.set i v).getD i none = v := by
  induction l generalizing i with
  | nil => simp at h
  | cons e t ih =>
    cases i with
    | zero => simp [List.set, List.getD]
    | succ j =>
      simp only [List.set, List.getD_cons_succ]
      exact ih j (by simpa using h)

theorem getD_set_ne (l : List (Option Bytes)) (i j : Nat) (v : Option Bytes)
    (h : j ≠ i) : (l.set i v).getD j none = l.getD j none := by
  induction l generalizing i j with
  | nil => simp [List.set]
  | cons e t ih =>
    cases i with
    | zero =>
      cases j with
      | zero => exact absurd rfl h
      | succ j' => simp [List.set]
    | succ i' =>
      cases j with
      | zero => simp [List.set]
      | succ j' =>
        simp only [List.set, List.getD_cons_succ]
        exact ih i' j' (by omega)
theorem countP_set_some (l : List (Option Bytes)) (i : Nat) (v : Bytes)
    (hlen : i < l.length) (h : l.getD i none = none) :
    (l.set i (some v)).countP (·.isSome) = l.countP (·.isSome) + 1 := by
  induction l generalizing i with
  | nil => simp at hlen
  | cons e t ih =>
    cases i with
    | zero =>
      simp [List.getD] at h
      simp [List.set, List.countP_cons, h]
    | succ j =>
      simp only [List.getD_cons_succ] at h
      simp only [List.set, List.countP_cons]
      rw [ih j (by simpa using hlen) h]
      omega
theorem countP_replicate_none (n : Nat) :
    (List.replicate n (none : Option Bytes)).countP (·.isSome) = 0 := by
  induction n with
  | zero => rfl
  | succ m ih => simp [List.replicate, List.countP_cons, ih]
theorem getD_replicate_none (n i : Nat) :
    (List.replicate n (none : Option Bytes)).getD i none = none := by
  induction n generalizing i with
  | zero => simp [List.getD]
  | succ m ih =>
    cases i with
    | zero => simp [List.replicate, List.getD]
    | succ j => simp only [List.replicate, List.getD_cons_succ]; exact ih j

/-! ## Chunk-processing runs -/

/-- Deliver a list of messages from the same connection in order,
keeping the resulting state. -/
def processMsgs (C : CryptoOps) (rnd : Bytes) (ivs : Nat → Bytes) (conn : String)
    (s : PeerState) (msgs : List PeerMessage) : PeerState :=
  msgs.foldl (fun s m => (handlePeerMessage C rnd ivs s conn m).1) s

/-- The chunk index of a `FILE_CHUNK` message (0 for other messages). -/
def chunkIdx : PeerMessage → Nat
  | .fileChunk _ i _ _ _ _ => i
  | _ => 0

/-- The property of being a `FILE_CHUNK` message for the given transfer. -/
def isChunkFor (fid : String) : PeerMessage → Prop
  | .fileChunk f _ _ _ _ _ => f = fid
  | _ => False

/-- The bytes the receiver stores for a message (meaningful on
`FILE_CHUNK` messages). -/
def storedOf (C : CryptoOps) (s : PeerState) : PeerMessage → Bytes
  | .fileChunk _ _ data _ encrypted iv => chunkStoredData C s data encrypted iv
  | _ => []

/-- The slot array that results from storing each chunk of the run in
turn (unconditionally; it agrees with the handler when no slot is hit
twice). -/
def fillChunks (C : CryptoOps) (s : PeerState) (msgs : List PeerMessage)
    (slots : List (Option Bytes)) : List (Option Bytes) :=
  msgs.foldl (fun sl m => sl.set (chunkIdx m) (some (storedOf C s m))) slots

theorem chunkStoredData_congr (C : CryptoOps) (s s' : PeerState)
    (h1 : s.senderConnection = s'.senderConnection) (h2 : s.peerKeys = s'.peerKeys)
    (data : Bytes) (enc : Bool) (iv : Option Bytes) :
    chunkStoredData C s data enc iv = chunkStoredData C s' data enc iv := by
  simp only [chunkStoredData, h1, h2]

theorem storedOf_congr (C : CryptoOps) (s s' : PeerState)
    (h1 : s.senderConnection = s'.senderConnection) (h2 : s.peerKeys = s'.peerKeys)
    (m : PeerMessage) : storedOf C s m = storedOf C s' m := by
  cases m <;> simp only [storedOf]
  exact chunkStoredData_congr C s s' h1 h2 _ _ _

theorem fillChunks_congr (C : CryptoOps) (s s' : PeerState)
    (h1 : s.senderConnection = s'.senderConnection) (h2 : s.peerKeys = s'.peerKeys) :
    ∀ (msgs : List PeerMessage) (slots : List (Option Bytes)),
    fillChunks C s msgs slots = fillChunks C s' msgs slots := by
  intro msgs
  induction msgs with
  | nil => intro slots; rfl
  | cons m t ih =>
    intro slots
    simp only [fillChunks, List.foldl_cons] at *
    rw [storedOf_congr C s s' h1 h2 m, ih]

theorem fillChunks_length (C : CryptoOps) (s : PeerState) :
    ∀ (msgs : List PeerMessage) (slots : List (Option Bytes)),
    (fillChunks C s msgs slots).length = slots.length := by
  intro msgs
  induction msgs with
  | nil => intro slots; rfl
  | cons m t ih =>
    intro slots
    simp only [fillChunks, List.foldl_cons] at *
    rw [ih, List.length_set]

/-- A `FILE_CHUNK` with no allocated buffer leaves the state unchanged
and sends nothing. -/
theorem handle_chunk_nobuf (C : CryptoOps) (rnd : Bytes) (ivs : Nat → Bytes)
    (s : PeerState) (conn fid : String) (i : Nat) (data : Bytes) (isL enc : Bool)
    (iv : Option Bytes) (hbuf : alGet s.downloadBuffers fid = none) :
    handlePeerMessage C rnd ivs s conn (.fileChunk fid i data isL enc iv) = (s, []) := by
  simp only [handlePeerMessage, hbuf]

/-- One stored chunk that does not complete the transfer. -/
theorem handle_chunk_step (C : CryptoOps) (rnd : Bytes) (ivs : Nat → Bytes)
    (s : PeerState) (conn fid : String) (i : Nat) (data : Bytes) (isL enc : Bool)
    (iv : Option Bytes) (buf : DownloadBuffer)
    (hbuf : alGet s.downloadBuffers fid = some buf)
    (hlen : i < buf.chunks.length)
    (hslot : buf.chunks.getD i none = none)
    (hnc : buf.chunks.countP (·.isSome) + 1 ≠ buf.chunks.length) :
    handlePeerMessage C rnd ivs s conn (.fileChunk fid i data isL enc iv) =
      ({ s with
        downloadBuffers := alSet s.downloadBuffers fid
          ⟨buf.chunks.set i (some (chunkStoredData C s data enc iv)), buf.name, buf.size⟩,
        downloadProgress := alSet s.downloadProgress fid
          ((((buf.chunks.countP (·.isSome) + 1 : Nat)) : ℚ) /
            ((buf.chunks.length : Nat) : ℚ) * 100) }, []) := by
  simp only [handlePeerMessage, hbuf, hslot, if_true, eq_self_iff_true,
    countP_set_some _ _ _ hlen hslot, List.length_set]
  rw [if_neg hnc]

/-- One stored chunk that completes the transfer: the buffer and the
progress entry are deleted and the reassembled file is saved. -/
theorem handle_chunk_complete (C : CryptoOps) (rnd : Bytes) (ivs : Nat → Bytes)
    (s : PeerState) (conn fid : String) (i : Nat) (data : Bytes) (isL enc : Bool)
    (iv : Option Bytes) (buf : DownloadBuffer)
    (hbuf : alGet s.downloadBuffers fid = some buf)
    (hlen : i < buf.chunks.length)
    (hslot : buf.chunks.getD i none = none)
    (hnc : buf.chunks.countP (·.isSome) + 1 = buf.chunks.length) :
    handlePeerMessage C rnd ivs s conn (.fileChunk fid i data isL enc iv) =
      ({ s with
        downloadBuffers := alDel s.downloadBuffers fid,
        downloadProgress := alDel s.downloadProgress fid,
        savedFiles := s.savedFiles ++
          [(buf.name,
            ((buf.chunks.set i (some (chunkStoredData C s data enc iv))).map
              (fun c => c.getD [])).flatten)] }, []) := by
  simp only [handlePeerMessage, hbuf, hslot, if_true, eq_self_iff_true,
    countP_set_some _ _ _ hlen hslot, List.length_set]
  rw [if_pos hnc]
  simp only [alDel_alSet]


/-- A run of fresh, distinct, in-range chunk stores that does not reach
completion: the buffer accumulates the stored chunks and the progress
entry tracks the received count. -/
theorem process_chunks_partial (C : CryptoOps) (rnd : Bytes) (ivs : Nat → Bytes)
    (conn fid : String) :
    ∀ (msgs : List PeerMessage) (s : PeerState) (buf : DownloadBuffer),
    msgs ≠ [] →
    alGet s.downloadBuffers fid = some buf →
    (∀ m ∈ msgs, isChunkFor fid m) →
    (msgs.map chunkIdx).Nodup →
    (∀ m ∈ msgs, chunkIdx m < buf.chunks.length ∧ buf.chunks.getD (chunkIdx m) none = none) →
    buf.chunks.countP (·.isSome) + msgs.length < buf.chunks.length →
    processMsgs C rnd ivs conn s msgs =
      { s with
        downloadBuffers := alSet s.downloadBuffers fid
          ⟨fillChunks C s msgs buf.chunks, buf.name, buf.size⟩,
        downloadProgress := alSet s.downloadProgress fid
          ((((buf.chunks.countP (·.isSome) + msgs.length : Nat)) : ℚ) /
            ((buf.chunks.length : Nat) : ℚ) * 100) } := by
  intro msgs
  induction msgs with
  | nil => intro s buf hne; exact absurd rfl hne
  | cons m rest ih =>
    intro s buf hne0 hbuf hform hnodup hfresh hcnt
    simp only [List.length_cons] at hcnt
    obtain ⟨i, data, isL, enc, iv, rfl⟩ :
        ∃ i data isL enc iv, m = PeerMessage.fileChunk fid i data isL enc iv := by
      cases m
      case fileChunk f ci d il e v =>
        have hf : f = fid := hform _ (List.mem_cons_self _ _)
        exact ⟨ci, d, il, e, v, by rw [hf]⟩
      all_goals exact False.elim (hform _ (List.mem_cons_self _ _))
    have hhead := hfresh _ (List.mem_cons_self _ _)
    have hidx : chunkIdx (PeerMessage.fileChunk fid i data isL enc iv) = i := rfl
    rw [hidx] at hhead
    have hstep := handle_chunk_step C rnd ivs s conn fid i data isL enc iv buf hbuf
      hhead.1 hhead.2 (by omega)
    have hps : processMsgs C rnd ivs conn s
        (PeerMessage.fileChunk fid i data isL enc iv :: rest) =
        processMsgs C rnd ivs conn
          (handlePeerMessage C rnd ivs s conn
            (PeerMessage.fileChunk fid i data isL enc iv)).1 rest := rfl
    rw [hps, hstep]
    set stored := chunkStoredData C s data enc iv with hstored
    set chunks1 := buf.chunks.set i (some stored) with hchunks1
    set s1 : PeerState := { s with
      downloadBuffers := alSet s.downloadBuffers fid ⟨chunks1, buf.name, buf.size⟩,
      downloadProgress := alSet s.downloadProgress fid
        ((((buf.chunks.countP (·.isSome) + 1 : Nat)) : ℚ) /
          ((buf.chunks.length : Nat) : ℚ) * 100) } with hs1
    by_cases hrest : rest = []
    · subst hrest
      show s1 = _
      rw [hs1]
      have hfill : fillChunks C s [PeerMessage.fileChunk fid i data isL enc iv]
          buf.chunks = chunks1 := rfl
      rw [hfill]
      rfl
    · have hcnt1 : chunks1.countP (·.isSome) = buf.chunks.countP (·.isSome) + 1 :=
        countP_set_some _ _ _ hhead.1 hhead.2
      have hlen1 : chunks1.length = buf.chunks.length := List.length_set _ _ _
      have hbuf1 : alGet s1.downloadBuffers fid =
          some ⟨chunks1, buf.name, buf.size⟩ := alGet_alSet_self _ _ _
      have hihgoal := ih s1 ⟨chunks1, buf.name, buf.size⟩ hrest hbuf1
        (fun m hm => hform m (List.mem_cons_of_mem _ hm))
        (List.Nodup.of_cons hnodup)
        (by
          intro m hm
          have h1 := hfresh m (List.mem_cons_of_mem _ hm)
          have hne : chunkIdx m ≠ i := by
            intro he
            have : chunkIdx m ∈ rest.map chunkIdx := List.mem_map_of_mem _ hm
            rw [he] at this
            simp only [List.map_cons, List.nodup_cons, hidx] at hnodup
            exact hnodup.1 this
          constructor
          · show chunkIdx m < chunks1.length
            rw [hlen1]; exact h1.1
          · show chunks1.getD (chunkIdx m) none = none
            rw [hchunks1, getD_set_ne _ _ _ _ hne]
            exact h1.2)
        (by
          show chunks1.countP (·.isSome) + rest.length < chunks1.length
          rw [hcnt1, hlen1]
          omega)
      rw [hihgoal]
      have hsc : s1.senderConnection = s.senderConnection := rfl
      have hpk : s1.peerKeys = s.peerKeys := rfl
      have hfillc : fillChunks C s1 rest chunks1 = fillChunks C s rest chunks1 :=
        fillChunks_congr C s1 s hsc hpk rest chunks1
      have hfill2 : fillChunks C s rest chunks1 =
          fillChunks C s (PeerMessage.fileChunk fid i data isL enc iv :: rest)
            buf.chunks := rfl
      show ({ s1 with
        downloadBuffers := alSet s1.downloadBuffers fid
          ⟨fillChunks C s1 rest chunks1, buf.name, buf.size⟩,
        downloadProgress := alSet s1.downloadProgress fid
          ((((chunks1.countP (·.isSome) + rest.length : Nat)) : ℚ) /
            ((chunks1.length : Nat) : ℚ) * 100) } : PeerState) = _
      rw [hfillc, hfill2]
      have hbu : alSet s1.downloadBuffers fid
          ⟨fillChunks C s (PeerMessage.fileChunk fid i data isL enc iv :: rest)
            buf.chunks, buf.name, buf.size⟩ =
          alSet s.downloadBuffers fid
          ⟨fillChunks C s (PeerMessage.fileChunk fid i data isL enc iv :: rest)
            buf.chunks, buf.name, buf.size⟩ := by
        show alSet (alSet s.downloadBuffers fid _) fid _ = _
        rw [alSet_alSet]
      have hpr : alSet s1.downloadProgress fid
          ((((chunks1.countP (·.isSome) + rest.length : Nat)) : ℚ) /
            ((chunks1.length : Nat) : ℚ) * 100) =
          alSet s.downloadProgress fid
          ((((buf.chunks.countP (·.isSome) +
              (PeerMessage.fileChunk fid i data isL enc iv :: rest).length : Nat)) : ℚ) /
            ((buf.chunks.length : Nat) : ℚ) * 100) := by
        show alSet (alSet s.downloadProgress fid _) fid _ = _
        have he : buf.chunks.countP (·.isSome) + 1 + rest.length =
            buf.chunks.countP (·.isSome) +
              (PeerMessage.fileChunk fid i data isL enc iv :: rest).length := by
          simp only [List.length_cons]
          omega
        rw [alSet_alSet, hcnt1, hlen1, he]
      rw [hbu, hpr]

/-- A run of fresh, distinct, in-range chunk stores that fills the last
empty slots: the transfer completes, the buffer and progress entry are
deleted and the reassembled bytes are saved under the buffered name. -/
theorem process_chunks_complete (C : CryptoOps) (rnd : Bytes) (ivs : Nat → Bytes)
    (conn fid : String) :
    ∀ (msgs : List PeerMessage) (s : PeerState) (buf : DownloadBuffer),
    msgs ≠ [] →
    alGet s.downloadBuffers fid = some buf →
    (∀ m ∈ msgs, isChunkFor fid m) →
    (msgs.map chunkIdx).Nodup →
    (∀ m ∈ msgs, chunkIdx m < buf.chunks.length ∧ buf.chunks.getD (chunkIdx m) none = none) →
    buf.chunks.countP (·.isSome) + msgs.length = buf.chunks.length →
    processMsgs C rnd ivs conn s msgs =
      { s with
        downloadBuffers := alDel s.downloadBuffers fid,
        downloadProgress := alDel s.downloadProgress fid,
        savedFiles := s.savedFiles ++
          [(buf.name,
            ((fillChunks C s msgs buf.chunks).map (fun c => c.getD [])).flatten)] } := by
  intro msgs
  induction msgs with
  | nil => intro s buf hne; exact absurd rfl hne
  | cons m rest ih =>
    intro s buf hne0 hbuf hform hnodup hfresh hcnt
    simp only [List.length_cons] at hcnt
    obtain ⟨i, data, isL, enc, iv, rfl⟩ :
        ∃ i data isL enc iv, m = PeerMessage.fileChunk fid i data isL enc iv := by
      cases m
      case fileChunk f ci d il e v =>
        have hf : f = fid := hform _ (List.mem_cons_self _ _)
        exact ⟨ci, d, il, e, v, by rw [hf]⟩
      all_goals exact False.elim (hform _ (List.mem_cons_self _ _))
    have hhead := hfresh _ (List.mem_cons_self _ _)
    have hidx : chunkIdx (PeerMessage.fileChunk fid i data isL enc iv) = i := rfl
    rw [hidx] at hhead
    have hps : processMsgs C rnd ivs conn s
        (PeerMessage.fileChunk fid i data isL enc iv :: rest) =
        processMsgs C rnd ivs conn
          (handlePeerMessage C rnd ivs s conn
            (PeerMessage.fileChunk fid i data isL enc iv)).1 rest := rfl
    by_cases hrest : rest = []
    · subst hrest
      simp only [List.length_nil] at hcnt
      have hstep := handle_chunk_complete C rnd ivs s conn fid i data isL enc iv buf hbuf
        hhead.1 hhead.2 (by omega)
      rw [hps, hstep]
      rfl
    · have hlrest : 1 ≤ rest.length := by
        cases rest with
        | nil => exact absurd rfl hrest
        | cons a b => simp
      have hstep := handle_chunk_step C rnd ivs s conn fid i data isL enc iv buf hbuf
        hhead.1 hhead.2 (by omega)
      rw [hps, hstep]
      set stored := chunkStoredData C s data enc iv with hstored
      set chunks1 := buf.chunks.set i (some stored) with hchunks1
      set s1 : PeerState := { s with
        downloadBuffers := alSet s.downloadBuffers fid ⟨chunks1, buf.name, buf.size⟩,
        downloadProgress := alSet s.downloadProgress fid
          ((((buf.chunks.countP (·.isSome) + 1 : Nat)) : ℚ) /
            ((buf.chunks.length : Nat) : ℚ) * 100) } with hs1
      have hcnt1 : chunks1.countP (·.isSome) = buf.chunks.countP (·.isSome) + 1 :=
        countP_set_some _ _ _ hhead.1 hhead.2
      have hlen1 : chunks1.length = buf.chunks.length := List.length_set _ _ _
      have hbuf1 : alGet s1.downloadBuffers fid =
          some ⟨chunks1, buf.name, buf.size⟩ := alGet_alSet_self _ _ _
      have hihgoal := ih s1 ⟨chunks1, buf.name, buf.size⟩ hrest hbuf1
        (fun m hm => hform m (List.mem_cons_of_mem _ hm))
        (List.Nodup.of_cons hnodup)
        (by
          intro m hm
          have h1 := hfresh m (List.mem_cons_of_mem _ hm)
          have hne : chunkIdx m ≠ i := by
            intro he
            have : chunkIdx m ∈ rest.map chunkIdx := List.mem_map_of_mem _ hm
            rw [he] at this
            simp only [List.map_cons, List.nodup_cons, hidx] at hnodup
            exact hnodup.1 this
          constructor
          · show chunkIdx m < chunks1.length
            rw [hlen1]; exact h1.1
          · show chunks1.getD (chunkIdx m) none = none
            rw [hchunks1, getD_set_ne _ _ _ _ hne]
            exact h1.2)
        (by
          show chunks1.countP (·.isSome) + rest.length = chunks1.length
          rw [hcnt1, hlen1]
          omega)
      rw [hihgoal]
      have hsc : s1.senderConnection = s.senderConnection := rfl
      have hpk : s1.peerKeys = s.peerKeys := rfl
      have hfillc : fillChunks C s1 rest chunks1 = fillChunks C s rest chunks1 :=
        fillChunks_congr C s1 s hsc hpk rest chunks1
      have hfill2 : fillChunks C s rest chunks1 =
          fillChunks C s (PeerMessage.fileChunk fid i data isL enc iv :: rest)
            buf.chunks := rfl
      show ({ s1 with
        downloadBuffers := alDel s1.downloadBuffers fid,
        downloadProgress := alDel s1.downloadProgress fid,
        savedFiles := s1.savedFiles ++
          [(buf.name,
            ((fillChunks C s1 rest chunks1).map (fun c => c.getD [])).flatten)] } :
          PeerState) = _
      rw [hfillc, hfill2]
      have hdb : alDel s1.downloadBuffers fid = alDel s.downloadBuffers fid := by
        show alDel (alSet s.downloadBuffers fid _) fid = _
        rw [alDel_alSet]
      have hdp : alDel s1.downloadProgress fid = alDel s.downloadProgress fid := by
        show alDel (alSet s.downloadProgress fid _) fid = _
        rw [alDel_alSet]
      rw [hdb, hdp]

theorem fillChunks_getD_not_mem (C : CryptoOps) (s : PeerState) :
    ∀ (msgs : List PeerMessage) (slots : List (Option Bytes)) (j : Nat),
    j ∉ msgs.map chunkIdx →
    (fillChunks C s msgs slots).getD j none = slots.getD j none := by
  intro msgs
  induction msgs with
  | nil => intro slots j _; rfl
  | cons m t ih =>
    intro slots j hj
    simp only [List.map_cons, List.mem_cons, not_or] at hj
    have hstep : fillChunks C s (m :: t) slots =
        fillChunks C s t (slots.set (chunkIdx m) (some (storedOf C s m))) := rfl
    rw [hstep, ih _ j hj.2, getD_set_ne _ _ _ _ hj.1]

theorem fillChunks_getD_mem (C : CryptoOps) (s : PeerState) :
    ∀ (msgs : List PeerMessage) (slots : List (Option Bytes)) (m : PeerMessage),
    (msgs.map chunkIdx).Nodup → m ∈ msgs → chunkIdx m < slots.length →
    (fillChunks C s msgs slots).getD (chunkIdx m) none = some (storedOf C s m) := by
  intro msgs
  induction msgs with
  | nil => intro slots m _ hm; exact absurd hm (List.not_mem_nil m)
  | cons m0 t ih =>
    intro slots m hnd hm hlt
    have hstep : fillChunks C s (m0 :: t) slots =
        fillChunks C s t (slots.set (chunkIdx m0) (some (storedOf C s m0))) := rfl
    simp only [List.map_cons, List.nodup_cons] at hnd
    rcases List.mem_cons.mp hm with rfl | hm
    · rw [hstep, fillChunks_getD_not_mem C s t _ _ hnd.1,
        getD_set_self _ _ _ hlt]
    · rw [hstep]
      exact ih _ m hnd.2 hm (by rw [List.length_set]; exact hlt)

/-- A nodup run whose indices cover `0..n-1` fills a fresh buffer with
exactly the stored chunk of each index. -/
theorem fillChunks_covering (C : CryptoOps) (s : PeerState)
    (msgs : List PeerMessage) (n : Nat) (d : Nat → Bytes)
    (hcov : (msgs.map chunkIdx).Perm (List.range n))
    (hd : ∀ m ∈ msgs, storedOf C s m = d (chunkIdx m)) :
    fillChunks C s msgs (List.replicate n none) =
      (List.range n).map (fun j => some (d j)) := by
  have hnd : (msgs.map chunkIdx).Nodup := hcov.nodup_iff.mpr (List.nodup_range n)
  apply List.ext_getElem
  · rw [fillChunks_length, List.length_replicate, List.length_map,
      List.length_range]
  · intro j h1 h2
    rw [fillChunks_length, List.length_replicate] at h1
    have hjmem : j ∈ msgs.map chunkIdx := by
      rw [hcov.mem_iff, List.mem_range]
      exact h1
    obtain ⟨m, hm, hjm⟩ := List.mem_map.mp hjmem
    have hget : (fillChunks C s msgs (List.replicate n none)).getD j none =
        some (d j) := by
      rw [← hjm]
      rw [fillChunks_getD_mem C s msgs _ m hnd hm
        (by rw [List.length_replicate, hjm]; exact h1), hd m hm]
    have hlt : j < (fillChunks C s msgs (List.replicate n none)).length := by
      rw [fillChunks_length, List.length_replicate]; exact h1
    rw [List.getD_eq_getElem?_getD, List.getElem?_eq_getElem hlt] at hget
    simp only [Option.getD_some] at hget
    rw [hget]
    rw [List.getElem_map, List.getElem_range]

/-- Delivering the same in-progress chunk twice: the second delivery
changes nothing (the stored slot is not overwritten and the progress is
not double-counted). -/
theorem handle_chunk_duplicate (C : CryptoOps) (rnd : Bytes) (ivs : Nat → Bytes)
    (s : PeerState) (conn fid : String) (i : Nat) (data : Bytes) (isL enc : Bool)
    (iv : Option Bytes) (buf : DownloadBuffer)
    (hbuf : alGet s.downloadBuffers fid = some buf)
    (hlen : i < buf.chunks.length)
    (hslot : buf.chunks.getD i none = none)
    (hnc : buf.chunks.countP (·.isSome) + 1 ≠ buf.chunks.length) :
    (handlePeerMessage C rnd ivs
      (handlePeerMessage C rnd ivs s conn (.fileChunk fid i data isL enc iv)).1
      conn (.fileChunk fid i data isL enc iv)).1 =
    (handlePeerMessage C rnd ivs s conn (.fileChunk fid i data isL enc iv)).1 := by
  rw [handle_chunk_step C rnd ivs s conn fid i data isL enc iv buf hbuf hlen hslot hnc]
  set stored := chunkStoredData C s data enc iv with hstored
  set chunks1 := buf.chunks.set i (some stored) with hchunks1
  set s1 : PeerState := { s with
    downloadBuffers := alSet s.downloadBuffers fid ⟨chunks1, buf.name, buf.size⟩,
    downloadProgress := alSet s.downloadProgress fid
      ((((buf.chunks.countP (·.isSome) + 1 : Nat)) : ℚ) /
        ((buf.chunks.length : Nat) : ℚ) * 100) } with hs1
  have hbuf1 : alGet s1.downloadBuffers fid = some ⟨chunks1, buf.name, buf.size⟩ :=
    alGet_alSet_self _ _ _
  have hcnt1 : chunks1.countP (·.isSome) = buf.chunks.countP (·.isSome) + 1 :=
    countP_set_some _ _ _ hlen hslot
  have hlen1 : chunks1.length = buf.chunks.length := List.length_set _ _ _
  have hfull : ¬ (chunks1.getD i none = none) := by
    rw [hchunks1, getD_set_self _ _ _ hlen]
    simp
  show (handlePeerMessage C rnd ivs s1 conn (.fileChunk fid i data isL enc iv)).1 = s1
  simp only [handlePeerMessage, hbuf1]
  rw [if_neg hfull]
  rw [if_neg (by rw [hcnt1, hlen1]; exact hnc)]
  show ({ s1 with
    downloadBuffers := alSet s1.downloadBuffers fid ⟨chunks1, buf.name, buf.size⟩,
    downloadProgress := alSet s1.downloadProgress fid
      ((((chunks1.countP (·.isSome) : Nat)) : ℚ) /
        ((chunks1.length : Nat) : ℚ) * 100) } : PeerState) = s1
  have hdb : alSet s1.downloadBuffers fid ⟨chunks1, buf.name, buf.size⟩ =
      s1.downloadBuffers := by
    show alSet (alSet s.downloadBuffers fid _) fid _ = _
    rw [alSet_alSet]
  have hdp : alSet s1.downloadProgress fid
      ((((chunks1.countP (·.isSome) : Nat)) : ℚ) /
        ((chunks1.length : Nat) : ℚ) * 100) = s1.downloadProgress := by
    show alSet (alSet s.downloadProgress fid _) fid _ = _
    rw [alSet_alSet, hcnt1, hlen1]
  rw [hdb, hdp]

/-- Concatenating the `CHUNK_SIZE`-slices of a list restores the list
(stated for any positive chunk size `c`). -/
theorem slices_join (c : Nat) (hc : 0 < c) (l : Bytes) :
    ((List.range ((l.length + c - 1) / c)).map (fun i =>
      (l.drop (i * c)).take (min (i * c + c) l.length - i * c))).flatten = l := by
  have key : ∀ N, ∀ l : Bytes, l.length ≤ N →
      ((List.range ((l.length + c - 1) / c)).map (fun i =>
        (l.drop (i * c)).take (min (i * c + c) l.length - i * c))).flatten = l := by
    intro N
    induction N with
    | zero =>
      intro l hl
      have h0 : l = [] := List.eq_nil_of_length_eq_zero (by omega)
      subst h0
      have ht : ((0 : Nat) + c - 1) / c = 0 := Nat.div_eq_of_lt (by omega)
      simp [ht]
    | succ N ihN =>
      intro l hl
      by_cases h0 : l.length = 0
      · have h0l : l = [] := List.eq_nil_of_length_eq_zero h0
        subst h0l
        have ht : ((0 : Nat) + c - 1) / c = 0 := Nat.div_eq_of_lt (by omega)
        simp [ht]
      · by_cases hsmall : l.length ≤ c
        · have ht : (l.length + c - 1) / c = 1 :=
            Nat.div_eq_of_lt_le (by omega) (by omega)
          rw [ht]
          have hr : List.range 1 = [0] := rfl
          rw [hr, List.map_cons, List.map_nil, List.flatten_cons,
            List.flatten_nil, List.append_nil]
          simp only [Nat.zero_mul, List.drop_zero, Nat.zero_add, Nat.sub_zero]
          have hmin : min c l.length = l.length := by omega
          rw [hmin, List.take_length]
        · push_neg at hsmall
          have ht : (l.length + c - 1) / c = ((l.length - c) + c - 1) / c + 1 := by
            have he : l.length + c - 1 = ((l.length - c) + c - 1) + c := by omega
            rw [he, Nat.add_div_right _ hc]
          rw [ht, List.range_succ_eq_map, List.map_cons, List.flatten_cons]
          simp only [Nat.zero_mul, List.drop_zero, Nat.zero_add, Nat.sub_zero]
          have hmin : min c l.length = c := by omega
          rw [hmin]
          have hdl : (l.drop c).length = l.length - c := List.length_drop _ _
          have hmap : (((List.range (((l.length - c) + c - 1) / c)).map Nat.succ).map
              (fun i => (l.drop (i * c)).take (min (i * c + c) l.length - i * c))) =
              ((List.range ((((l.drop c).length) + c - 1) / c)).map (fun i =>
                ((l.drop c).drop (i * c)).take
                  (min (i * c + c) (l.drop c).length - i * c))) := by
            rw [List.map_map, hdl]
            apply List.map_congr_left
            intro i _
            simp only [Function.comp_apply]
            have hdd : (l.drop c).drop (i * c) = l.drop (Nat.succ i * c) := by
              rw [List.drop_drop]
              congr 1
              rw [Nat.succ_eq_add_one]
              ring
            rw [hdd]
            congr 1
            have hs : Nat.succ i * c = i * c + c := by
              rw [Nat.succ_eq_add_one]
              ring
            rw [hs]
            generalize i * c = k
            omega
          rw [hmap, ihN (l.drop c) (by omega)]
          exact List.take_append_drop c l
  exact key l.length l le_rfl

/-! ## Claims about the peer state machine -/

/-- A crypto interface whose operations are inert (used to instantiate
claims that do not depend on the cryptography). -/
def witnessOps : CryptoOps :=
  ⟨fun _ _ => none, fun _ _ => none, fun _ _ _ => false,
    fun _ _ _ => none, fun _ _ _ => none⟩

/-- The crypto interface backed by the executable AES-256-GCM model:
`decryptData`/`encryptData` are the real algorithms with `none` where
the source would throw. -/
def aesCryptoOps : CryptoOps :=
  ⟨fun _ _ => none, fun _ _ => none, fun _ _ _ => false,
    fun data key iv => (encryptData data key iv).toOption.map (fun e => e.data),
    fun data iv key => (decryptData ⟨data, iv⟩ key).toOption⟩

/-- C10: a `FILE_CHUNK` whose `fileId` has no allocated transfer buffer
leaves the receiver state entirely unchanged — no chunk bytes stored, no
progress entry touched, no save triggered — and sends nothing. -/
theorem C10_chunk_without_buffer_is_noop (C : CryptoOps) (rnd : Bytes)
    (ivs : Nat → Bytes) (s : PeerState) (conn fid : String) (i : Nat)
    (data : Bytes) (isL enc : Bool) (iv : Option Bytes)
    (hbuf : alGet s.downloadBuffers fid = none) :
    handlePeerMessage C rnd ivs s conn (.fileChunk fid i data isL enc iv) = (s, []) :=
  handle_chunk_nobuf C rnd ivs s conn fid i data isL enc iv hbuf

/-- Witness for C10: a state buffering file "g" drops a chunk for the
unknown file "f" without any change. -/
theorem C10_chunk_without_buffer_is_noop_witness :
    alGet ([("g", (⟨[none], "g.txt", 1⟩ : DownloadBuffer))]) "f" = none ∧
    handlePeerMessage witnessOps [] (fun _ => [])
      ⟨false, [], [], [], [], false, .connecting,
        [("g", ⟨[none], "g.txt", 1⟩)], none, none, [], [], none, []⟩
      "p" (.fileChunk "f" 0 [1, 2] true false none) =
      (⟨false, [], [], [], [], false, .connecting,
        [("g", ⟨[none], "g.txt", 1⟩)], none, none, [], [], none, []⟩, []) :=
  ⟨by decide,
    C10_chunk_without_buffer_is_noop witnessOps [] (fun _ => []) _ "p" "f" 0
      [1, 2] true false none (by decide)⟩

/-- C8 counterexample: `addFiles` sends the `FILES_UPDATE` manifest to a
connected peer that is **not** verified, refuting "and to no peer that
is not verified". -/
theorem C8_counterexample :
    (⟨"p1", "alice", false, none⟩ : ConnectedPeer).isVerified = false ∧
    (addFiles
      ⟨false, [], [⟨"p1", "alice", false, none⟩], [], [], false, .connecting,
        [], none, none, [], [], none, []⟩
      [⟨⟨"f.txt", [1, 2, 3]⟩, "id1"⟩]).2 =
      [("p1", PeerMessage.filesUpdate [⟨"id1", "f.txt", 3⟩])] :=
  ⟨rfl, rfl⟩

/-- C8 (amended): whenever the shared-file set changes via `addFiles` or
`removeFile`, the updated manifest is sent to **every** connected peer,
verified or not (the source broadcasts over all of `connections`,
without filtering on verification). -/
theorem C8_files_update_broadcast (s : PeerState) (newFiles : List SharedFile)
    (fid : String) :
    (addFiles s newFiles).2 = s.connectedPeers.map (fun peer =>
      (peer.id, PeerMessage.filesUpdate (manifestOf (s.sharedFiles ++ newFiles)))) ∧
    (removeFile s fid).2 = s.connectedPeers.map (fun peer =>
      (peer.id, PeerMessage.filesUpdate
        (manifestOf (s.sharedFiles.filter (fun sf => ¬ sf.id = fid))))) :=
  ⟨rfl, rfl⟩

/-- C3: when the decryption of an encrypted `FILE_CHUNK` fails, the
receiver does **not** abort the transfer: it stores the raw ciphertext
bytes in the slot, counts them as progress, signals no error, and sends
nothing — the silent-fallback defect the specification flags. -/
theorem C3_decrypt_failure_stores_ciphertext (C : CryptoOps) (rnd : Bytes)
    (ivs : Nat → Bytes) (s : PeerState) (conn fid sender : String) (i : Nat)
    (data iv key : Bytes) (isL : Bool) (buf : DownloadBuffer) (pk : PeerKeysEntry)
    (hsc : s.senderConnection = some sender)
    (hpk : alGet s.peerKeys sender = some pk)
    (hkey : pk.sharedKey = some key)
    (hfail : C.decryptData data iv key = none)
    (hbuf : alGet s.downloadBuffers fid = some buf)
    (hlen : i < buf.chunks.length)
    (hslot : buf.chunks.getD i none = none)
    (hnc : buf.chunks.countP (·.isSome) + 1 ≠ buf.chunks.length) :
    ∃ s1, handlePeerMessage C rnd ivs s conn
        (.fileChunk fid i data isL true (some iv)) = (s1, []) ∧
      (∃ buf1, alGet s1.downloadBuffers fid = some buf1 ∧
        buf1.chunks.getD i none = some data) ∧
      s1.connectionStatus = s.connectionStatus ∧
      s1.savedFiles = s.savedFiles := by
  have hstored : chunkStoredData C s data true (some iv) = data := by
    have hch : (s.senderConnection.bind (alGet s.peerKeys)).bind
        (fun e => e.sharedKey) = some key := by
      rw [hsc]
      show (alGet s.peerKeys sender).bind (fun e => e.sharedKey) = some key
      rw [hpk]
      show pk.sharedKey = some key
      exact hkey
    rw [chunkStoredData, if_pos (by simp [hsc]), hch]
    show (match C.decryptData data iv key with
      | some ptx => ptx | none => data) = data
    rw [hfail]
  refine ⟨_, handle_chunk_step C rnd ivs s conn fid i data isL true (some iv) buf
      hbuf hlen hslot hnc, ⟨⟨buf.chunks.set i (some (chunkStoredData C s data true
        (some iv))), buf.name, buf.size⟩, alGet_alSet_self _ _ _, ?_⟩, rfl, rfl⟩
  show (buf.chunks.set i (some (chunkStoredData C s data true (some iv)))).getD
      i none = some data
  rw [getD_set_self _ _ _ hlen, hstored]

/-- Witness for C3: the ciphertext `[1,1,…,1]` (20 bytes) fails GCM
authentication under the all-zero shared key, yet the handler stores the
raw bytes and reports no error. -/
theorem C3_decrypt_failure_stores_ciphertext_witness :
    aesCryptoOps.decryptData (List.replicate 20 1) (List.replicate 12 0)
      (List.replicate 32 0) = none ∧
    (∃ s1, handlePeerMessage aesCryptoOps [] (fun _ => [])
        ⟨false, [], [], [], [], false, .connecting,
          [("f", ⟨[none, none], "doc", 2⟩)], none, none,
          [("sender", ⟨[], [], some (List.replicate 32 0)⟩)], [],
          some "sender", []⟩
        "p" (.fileChunk "f" 0 (List.replicate 20 1) false true
          (some (List.replicate 12 0))) = (s1, []) ∧
      (∃ buf1, alGet s1.downloadBuffers "f" = some buf1 ∧
        buf1.chunks.getD 0 none = some (List.replicate 20 1)) ∧
      s1.connectionStatus = ConnStatus.connecting ∧
      s1.savedFiles = []) :=
  ⟨by decide,
    C3_decrypt_failure_stores_ciphertext aesCryptoOps [] (fun _ => []) _ "p" "f"
      "sender" 0 (List.replicate 20 1) (List.replicate 12 0) (List.replicate 32 0)
      false ⟨[none, none], "doc", 2⟩ ⟨[], [], some (List.replicate 32 0)⟩
      rfl (by decide) rfl (by decide) (by decide) (by decide) (by decide)
      (by decide)⟩

/-! ## Reachable states and the verification invariant -/

/-- The state right after `initializePeer`: fresh key pairs, nothing
else. -/
def initState (dh sk : KeyPair) : PeerState :=
  ⟨false, [], [], [], [], false, .connecting, [], some dh, some sk, [], [], none, []⟩

/-- States reachable from an initialized session by delivering messages
and sharing or unsharing files locally. -/
inductive Reach (C : CryptoOps) : PeerState → Prop where
  | init (dh sk : KeyPair) : Reach C (initState dh sk)
  | step {s : PeerState} (rnd : Bytes) (ivs : Nat → Bytes) (conn : String)
      (msg : PeerMessage) (h : Reach C s) :
      Reach C (handlePeerMessage C rnd ivs s conn msg).1
  | add {s : PeerState} (files : List SharedFile) (h : Reach C s) :
      Reach C (addFiles s files).1
  | remove {s : PeerState} (fid : String) (h : Reach C s) :
      Reach C (removeFile s fid).1

/-- The crypto interface along the C9 defect trace: key derivation
succeeds against the peer key `[7]` and throws (returns `none`) against
the off-curve peer key `[11]`; challenge verification succeeds, as it
does for a correctly signed response. -/
def offCurveOps : CryptoOps :=
  ⟨fun _ pub => if pub = [7] then some [1] else none,
    fun _ _ => some [2], fun _ _ _ => true,
    fun _ _ _ => none, fun _ _ _ => none⟩

/-- C9: the claimed invariant is **false** in the source.  After HELLO
and a valid KEY_EXCHANGE, a second KEY_EXCHANGE carrying an off-curve
peer key replaces the stored peer-keys entry before `deriveSharedKey`
throws; the catch only sets the error status, leaving the entry without
a shared key and the earlier challenge outstanding.  A correctly signed
CHALLENGE_RESPONSE then marks the peer verified while its `sharedKey`
is unset: the resulting state is reachable and contains a verified peer
whose shared key is `none`. -/
theorem C9_verified_without_shared_key :
    Reach offCurveOps
      ((handlePeerMessage offCurveOps [] (fun _ => [])
        (handlePeerMessage offCurveOps [] (fun _ => [])
          (handlePeerMessage offCurveOps [] (fun _ => [])
            (handlePeerMessage offCurveOps [] (fun _ => [])
              (initState ⟨[3], [4]⟩ ⟨[5], [6]⟩) "p" (.hello "alice")).1
            "p" (.keyExchange [7] [8])).1
          "p" (.keyExchange [11] [8])).1
        "p" (.challengeResponse [9])).1) ∧
    (⟨"p", "alice", true, none⟩ : ConnectedPeer) ∈
      (((handlePeerMessage offCurveOps [] (fun _ => [])
        (handlePeerMessage offCurveOps [] (fun _ => [])
          (handlePeerMessage offCurveOps [] (fun _ => [])
            (handlePeerMessage offCurveOps [] (fun _ => [])
              (initState ⟨[3], [4]⟩ ⟨[5], [6]⟩) "p" (.hello "alice")).1
            "p" (.keyExchange [7] [8])).1
          "p" (.keyExchange [11] [8])).1
        "p" (.challengeResponse [9])).1)).connectedPeers ∧
    (⟨"p", "alice", true, none⟩ : ConnectedPeer).isVerified = true ∧
    (⟨"p", "alice", true, none⟩ : ConnectedPeer).sharedKey = none :=
  ⟨Reach.step [] (fun _ => []) "p" (.challengeResponse [9])
      (Reach.step [] (fun _ => []) "p" (.keyExchange [11] [8])
        (Reach.step [] (fun _ => []) "p" (.keyExchange [7] [8])
          (Reach.step [] (fun _ => []) "p" (.hello "alice")
            (Reach.init ⟨[3], [4]⟩ ⟨[5], [6]⟩)))),
    by decide, rfl, rfl⟩

/-- C7: chunk reassembly is order-independent.  For a fresh `n`-chunk
buffer and any batch of chunk messages covering indices `0..n-1` exactly
once, (i) the run completes and saves the file assembled index-by-index,
independent of arrival order and of where the `isLast` flag sits, (ii)
any permutation of the batch produces the identical final state, and
(iii) re-delivering an in-progress chunk is idempotent: the stored slot
is not overwritten and progress is not double-counted. -/
theorem C7_chunk_order_independence (C : CryptoOps) (rnd : Bytes) (ivs : Nat → Bytes)
    (conn fid : String) (s : PeerState) (buf : DownloadBuffer) (n : Nat)
    (d : Nat → Bytes) (ms1 ms2 : List PeerMessage)
    (hbuf : alGet s.downloadBuffers fid = some buf)
    (hchunks : buf.chunks = List.replicate n none)
    (hn : 0 < n)
    (hform : ∀ m ∈ ms1, isChunkFor fid m)
    (hcov : (ms1.map chunkIdx).Perm (List.range n))
    (hd : ∀ m ∈ ms1, storedOf C s m = d (chunkIdx m))
    (hperm : ms1.Perm ms2) :
    processMsgs C rnd ivs conn s ms1 =
      { s with
        downloadBuffers := alDel s.downloadBuffers fid,
        downloadProgress := alDel s.downloadProgress fid,
        savedFiles := s.savedFiles ++
          [(buf.name, ((List.range n).map d).flatten)] } ∧
    processMsgs C rnd ivs conn s ms1 = processMsgs C rnd ivs conn s ms2 ∧
    (∀ (s2 : PeerState) (i : Nat) (data : Bytes) (isL enc : Bool) (iv : Option Bytes)
      (buf2 : DownloadBuffer),
      alGet s2.downloadBuffers fid = some buf2 →
      i < buf2.chunks.length →
      buf2.chunks.getD i none = none →
      buf2.chunks.countP (·.isSome) + 1 ≠ buf2.chunks.length →
      (handlePeerMessage C rnd ivs
        (handlePeerMessage C rnd ivs s2 conn (.fileChunk fid i data isL enc iv)).1
        conn (.fileChunk fid i data isL enc iv)).1 =
      (handlePeerMessage C rnd ivs s2 conn (.fileChunk fid i data isL enc iv)).1) := by
  have main : ∀ ms : List PeerMessage, (∀ m ∈ ms, isChunkFor fid m) →
      (ms.map chunkIdx).Perm (List.range n) →
      (∀ m ∈ ms, storedOf C s m = d (chunkIdx m)) →
      processMsgs C rnd ivs conn s ms =
        { s with
          downloadBuffers := alDel s.downloadBuffers fid,
          downloadProgress := alDel s.downloadProgress fid,
          savedFiles := s.savedFiles ++
            [(buf.name, ((List.range n).map d).flatten)] } := by
    intro ms hf hc hdm
    have hlen : ms.length = n := by
      have h1 := hc.length_eq
      simpa using h1
    have hne : ms ≠ [] := by
      intro h0
      subst h0
      simp at hlen
      omega
    have hfresh : ∀ m ∈ ms, chunkIdx m < buf.chunks.length ∧
        buf.chunks.getD (chunkIdx m) none = none := by
      intro m hm
      constructor
      · rw [hchunks, List.length_replicate]
        have h2 : chunkIdx m ∈ ms.map chunkIdx := List.mem_map_of_mem _ hm
        rw [hc.mem_iff, List.mem_range] at h2
        exact h2
      · rw [hchunks, getD_replicate_none]
    have hnodup : (ms.map chunkIdx).Nodup := hc.nodup_iff.mpr (List.nodup_range n)
    have hcount : buf.chunks.countP (·.isSome) + ms.length = buf.chunks.length := by
      rw [hchunks, countP_replicate_none, List.length_replicate, hlen]
      omega
    have hmain := process_chunks_complete C rnd ivs conn fid ms s buf hne hbuf hf
      hnodup hfresh hcount
    rw [hmain]
    have hass : ((fillChunks C s ms buf.chunks).map (fun c => c.getD [])).flatten =
        ((List.range n).map d).flatten := by
      rw [hchunks, fillChunks_covering C s ms n d hc hdm, List.map_map]
      congr 1
    rw [hass]
  refine ⟨main ms1 hform hcov hd, ?_, ?_⟩
  · rw [main ms1 hform hcov hd,
      main ms2 (fun m hm => hform m (hperm.mem_iff.mpr hm))
        (((hperm.map chunkIdx).symm).trans hcov)
        (fun m hm => hd m (hperm.mem_iff.mpr hm))]
  · exact fun s2 i data isL enc iv buf2 h1 h2 h3 h4 =>
      handle_chunk_duplicate C rnd ivs s2 conn fid i data isL enc iv buf2 h1 h2 h3 h4

/-- Witness for C7: a two-chunk transfer delivered in the order `[1, 0]`
(the `isLast` chunk first) equals the in-order delivery and saves
`[7] ++ [9]`. -/
theorem C7_chunk_order_independence_witness :
    (0 : Nat) < 2 ∧
    processMsgs witnessOps [] (fun _ => []) "p"
      ⟨false, [], [], [], [], false, .connecting, [("f", ⟨[none, none], "doc", 2⟩)],
        none, none, [], [], none, []⟩
      [.fileChunk "f" 1 [9] true false none, .fileChunk "f" 0 [7] false false none] =
    processMsgs witnessOps [] (fun _ => []) "p"
      ⟨false, [], [], [], [], false, .connecting, [("f", ⟨[none, none], "doc", 2⟩)],
        none, none, [], [], none, []⟩
      [.fileChunk "f" 0 [7] false false none, .fileChunk "f" 1 [9] true false none] ∧
    (processMsgs witnessOps [] (fun _ => []) "p"
      ⟨false, [], [], [], [], false, .connecting, [("f", ⟨[none, none], "doc", 2⟩)],
        none, none, [], [], none, []⟩
      [.fileChunk "f" 1 [9] true false none,
        .fileChunk "f" 0 [7] false false none]).savedFiles =
      [("doc", [7, 9])] := by
  have h := C7_chunk_order_independence witnessOps [] (fun _ => []) "p" "f"
    ⟨false, [], [], [], [], false, .connecting, [("f", ⟨[none, none], "doc", 2⟩)],
      none, none, [], [], none, []⟩
    ⟨[none, none], "doc", 2⟩ 2 (fun j => if j = 0 then [7] else [9])
    [.fileChunk "f" 1 [9] true false none, .fileChunk "f" 0 [7] false false none]
    [.fileChunk "f" 0 [7] false false none, .fileChunk "f" 1 [9] true false none]
    (by decide) (by decide) (by decide)
    (by intro m hm; fin_cases hm <;> rfl)
    (by decide)
    (by intro m hm; fin_cases hm <;> decide)
    (by decide)
  exact ⟨by decide, h.2.1, (congrArg PeerState.savedFiles h.1).trans (by decide)⟩

/-- With no shared key recorded for the target peer, `sendFileToReceiver`
sends the metadata and the cleartext `CHUNK_SIZE`-slices, unencrypted. -/
theorem sendFile_cleartext (C : CryptoOps) (ivs : Nat → Bytes) (s : PeerState)
    (sf : SharedFile) (conn : String)
    (hkey : (alGet s.peerKeys conn).bind (fun e => e.sharedKey) = none) :
    sendFileToReceiver C ivs s sf conn =
      (conn, .fileMetadata sf.id sf.file.name sf.file.content.length
        ((sf.file.content.length + CHUNK_SIZE - 1) / CHUNK_SIZE) false) ::
        (List.range ((sf.file.content.length + CHUNK_SIZE - 1) / CHUNK_SIZE)).map
          (fun i =>
            (conn, .fileChunk sf.id i
              ((sf.file.content.drop (i * CHUNK_SIZE)).take
                (min (i * CHUNK_SIZE + CHUNK_SIZE) sf.file.content.length -
                  i * CHUNK_SIZE))
              (i = (sf.file.content.length + CHUNK_SIZE - 1) / CHUNK_SIZE - 1)
              false none)) := by
  simp only [sendFileToReceiver, hkey, Option.isSome_none]

/-- C6: for a file of `n > 0` bytes sent without encryption, the sender
emits `totalChunks = ⌈n / 65536⌉` chunks, indices `0..totalChunks-1`,
each of exactly `CHUNK_SIZE` bytes except a possibly-shorter last one;
any receiver that processes the sent messages reassembles exactly the
original `n` bytes; and a 150000-byte file yields 3 chunks. -/
theorem C6_chunking (C : CryptoOps) (rnd : Bytes) (ivs : Nat → Bytes)
    (s r : PeerState) (conn : String) (sf : SharedFile) (n total : Nat)
    (hn : sf.file.content.length = n) (hpos : 0 < n)
    (htot : total = (n + CHUNK_SIZE - 1) / CHUNK_SIZE)
    (hkey : (alGet s.peerKeys conn).bind (fun e => e.sharedKey) = none) :
    sendFileToReceiver C ivs s sf conn =
      (conn, .fileMetadata sf.id sf.file.name n total false) ::
        (List.range total).map (fun i =>
          (conn, .fileChunk sf.id i
            ((sf.file.content.drop (i * CHUNK_SIZE)).take
              (min (i * CHUNK_SIZE + CHUNK_SIZE) n - i * CHUNK_SIZE))
            (i = total - 1) false none)) ∧
    (∀ i, i + 1 < total →
      ((sf.file.content.drop (i * CHUNK_SIZE)).take
        (min (i * CHUNK_SIZE + CHUNK_SIZE) n - i * CHUNK_SIZE)).length =
        CHUNK_SIZE) ∧
    ((sf.file.content.drop ((total - 1) * CHUNK_SIZE)).take
        (min ((total - 1) * CHUNK_SIZE + CHUNK_SIZE) n -
          (total - 1) * CHUNK_SIZE)).length = n - (total - 1) * CHUNK_SIZE ∧
    (processMsgs C rnd ivs conn r
        ((sendFileToReceiver C ivs s sf conn).map Prod.snd)).savedFiles =
      r.savedFiles ++ [(sf.file.name, sf.file.content)] ∧
    (n = 150000 → total = 3) := by
  subst htot
  subst hn
  have hc : (0 : Nat) < CHUNK_SIZE := by decide
  have hA := sendFile_cleartext C ivs s sf conn hkey
  have htpos : 0 < (sf.file.content.length + CHUNK_SIZE - 1) / CHUNK_SIZE := by
    simp only [CHUNK_SIZE] at *
    omega
  refine ⟨hA, ?_, ?_, ?_, ?_⟩
  · intro i hi
    rw [List.length_take, List.length_drop]
    have hib : (i + 1) * CHUNK_SIZE ≤
        ((sf.file.content.length + CHUNK_SIZE - 1) / CHUNK_SIZE - 1) * CHUNK_SIZE := by
      have h2 : i + 1 ≤ (sf.file.content.length + CHUNK_SIZE - 1) / CHUNK_SIZE - 1 := by
        omega
      exact Nat.mul_le_mul_right _ h2
    simp only [CHUNK_SIZE] at *
    omega
  · rw [List.length_take, List.length_drop]
    have hub : sf.file.content.length ≤
        ((sf.file.content.length + CHUNK_SIZE - 1) / CHUNK_SIZE) * CHUNK_SIZE := by
      simp only [CHUNK_SIZE] at *
      omega
    have hlb : ((sf.file.content.length + CHUNK_SIZE - 1) / CHUNK_SIZE - 1) *
        CHUNK_SIZE < sf.file.content.length := by
      simp only [CHUNK_SIZE] at *
      omega
    simp only [CHUNK_SIZE] at *
    omega
  · rw [hA]
    have hmap : (((conn, PeerMessage.fileMetadata sf.id sf.file.name
        sf.file.content.length
        ((sf.file.content.length + CHUNK_SIZE - 1) / CHUNK_SIZE) false) ::
        (List.range ((sf.file.content.length + CHUNK_SIZE - 1) / CHUNK_SIZE)).map
          (fun i =>
            (conn, PeerMessage.fileChunk sf.id i
              ((sf.file.content.drop (i * CHUNK_SIZE)).take
                (min (i * CHUNK_SIZE + CHUNK_SIZE) sf.file.content.length -
                  i * CHUNK_SIZE))
              (i = (sf.file.content.length + CHUNK_SIZE - 1) / CHUNK_SIZE - 1)
              false none))).map Prod.snd) =
        PeerMessage.fileMetadata sf.id sf.file.name sf.file.content.length
          ((sf.file.content.length + CHUNK_SIZE - 1) / CHUNK_SIZE) false ::
        (List.range ((sf.file.content.length + CHUNK_SIZE - 1) / CHUNK_SIZE)).map
          (fun i =>
            PeerMessage.fileChunk sf.id i
              ((sf.file.content.drop (i * CHUNK_SIZE)).take
                (min (i * CHUNK_SIZE + CHUNK_SIZE) sf.file.content.length -
                  i * CHUNK_SIZE))
              (i = (sf.file.content.length + CHUNK_SIZE - 1) / CHUNK_SIZE - 1)
              false none) := by
      rw [List.map_cons, List.map_map]
      rfl
    rw [hmap]
    set total := (sf.file.content.length + CHUNK_SIZE - 1) / CHUNK_SIZE with htot
    set g : Nat → PeerMessage := fun i =>
      PeerMessage.fileChunk sf.id i
        ((sf.file.content.drop (i * CHUNK_SIZE)).take
          (min (i * CHUNK_SIZE + CHUNK_SIZE) sf.file.content.length -
            i * CHUNK_SIZE))
        (i = total - 1) false none with hg
    set r1 : PeerState := { r with
      downloadBuffers := alSet r.downloadBuffers sf.id
        ⟨List.replicate total none, sf.file.name, sf.file.content.length⟩,
      downloadProgress := alSet r.downloadProgress sf.id 0 } with hr1
    have hstep : processMsgs C rnd ivs conn r
        (PeerMessage.fileMetadata sf.id sf.file.name sf.file.content.length total
          false :: (List.range total).map g) =
        processMsgs C rnd ivs conn r1 ((List.range total).map g) := rfl
    rw [hstep]
    have hid : ((List.range total).map g).map chunkIdx = List.range total := by
      rw [List.map_map]
      have hgi : (chunkIdx ∘ g) = fun i => i := funext fun i => rfl
      rw [hgi]
      simp
    have hbuf1 : alGet r1.downloadBuffers sf.id =
        some ⟨List.replicate total none, sf.file.name, sf.file.content.length⟩ :=
      alGet_alSet_self _ _ _
    have hform1 : ∀ m ∈ (List.range total).map g, isChunkFor sf.id m := by
      intro m hm
      obtain ⟨i, _, rfl⟩ := List.mem_map.mp hm
      show sf.id = sf.id
      rfl
    have hnodup1 : (((List.range total).map g).map chunkIdx).Nodup := by
      rw [hid]
      exact List.nodup_range total
    have hfresh1 : ∀ m ∈ (List.range total).map g,
        chunkIdx m < (List.replicate total (none : Option Bytes)).length ∧
        (List.replicate total (none : Option Bytes)).getD (chunkIdx m) none = none := by
      intro m hm
      obtain ⟨i, hi, rfl⟩ := List.mem_map.mp hm
      rw [List.mem_range] at hi
      constructor
      · rw [List.length_replicate]
        exact hi
      · exact getD_replicate_none _ _
    have hne1 : (List.range total).map g ≠ [] := by
      intro h0
      have h1 := congrArg List.length h0
      simp at h1
      omega
    have hcnt1 : (List.replicate total (none : Option Bytes)).countP (·.isSome) +
        ((List.range total).map g).length =
        (List.replicate total (none : Option Bytes)).length := by
      rw [countP_replicate_none, List.length_replicate, List.length_map,
        List.length_range]
      omega
    have hrun := process_chunks_complete C rnd ivs conn sf.id
      ((List.range total).map g) r1
      ⟨List.replicate total none, sf.file.name, sf.file.content.length⟩
      hne1 hbuf1 hform1 hnodup1 hfresh1 hcnt1
    have hdfun : ∀ m ∈ (List.range total).map g, storedOf C r1 m =
        (fun j => (sf.file.content.drop (j * CHUNK_SIZE)).take
          (min (j * CHUNK_SIZE + CHUNK_SIZE) sf.file.content.length -
            j * CHUNK_SIZE)) (chunkIdx m) := by
      intro m hm
      obtain ⟨i, _, rfl⟩ := List.mem_map.mp hm
      rfl
    have hcov1 : (((List.range total).map g).map chunkIdx).Perm
        (List.range total) := by
      rw [hid]
    have hass : ((fillChunks C r1 ((List.range total).map g)
        (List.replicate total none)).map (fun c => c.getD [])).flatten =
        sf.file.content := by
      rw [fillChunks_covering C r1 ((List.range total).map g) total
          (fun j => (sf.file.content.drop (j * CHUNK_SIZE)).take
            (min (j * CHUNK_SIZE + CHUNK_SIZE) sf.file.content.length -
              j * CHUNK_SIZE)) hcov1 hdfun,
        List.map_map]
      have hcomp : ((fun c : Option Bytes => c.getD []) ∘
          (fun j => some ((sf.file.content.drop (j * CHUNK_SIZE)).take
            (min (j * CHUNK_SIZE + CHUNK_SIZE) sf.file.content.length -
              j * CHUNK_SIZE)))) =
          (fun j => (sf.file.content.drop (j * CHUNK_SIZE)).take
            (min (j * CHUNK_SIZE + CHUNK_SIZE) sf.file.content.length -
              j * CHUNK_SIZE)) := rfl
      rw [hcomp, htot]
      exact slices_join CHUNK_SIZE hc sf.file.content
    have hsv := congrArg PeerState.savedFiles hrun
    dsimp only at hsv
    rw [hsv, hass]
  · intro h150
    rw [h150]
    decide

/-- Witness for C6: a 3-byte file goes out as one cleartext chunk and a
fresh receiver reassembles exactly the original bytes. -/
theorem C6_chunking_witness :
    ([5, 6, 7] : Bytes).length = 3 ∧ (0 : Nat) < 3 ∧
    (1 : Nat) = (3 + CHUNK_SIZE - 1) / CHUNK_SIZE ∧
    (processMsgs witnessOps [] (fun _ => []) "p"
        ⟨false, [], [], [], [], false, .connecting, [], none, none, [], [], none, []⟩
        ((sendFileToReceiver witnessOps (fun _ => [])
          ⟨false, [], [], [], [], false, .connecting, [], none, none, [], [], none, []⟩
          ⟨⟨"a.txt", [5, 6, 7]⟩, "id1"⟩ "p").map Prod.snd)).savedFiles =
      [("a.txt", [5, 6, 7])] :=
  ⟨rfl, by decide, by decide,
    ((C6_chunking witnessOps [] (fun _ => [])
      ⟨false, [], [], [], [], false, .connecting, [], none, none, [], [], none, []⟩
      ⟨false, [], [], [], [], false, .connecting, [], none, none, [], [], none, []⟩
      "p" ⟨⟨"a.txt", [5, 6, 7]⟩, "id1"⟩ 3 1 rfl (by decide) (by decide)
      (by decide)).2.2.2.1).trans (by decide)⟩

end DropShare
